import Mathlib

/-!
Verification development for the @codemirror/autocomplete engine.

This file gives a shallow embedding, in Lean 4, of the completion engine's
state machinery (`src/state.ts`), the relevant parts of the completion data
model (`src/completion.ts`), and the scheduler's query bookkeeping
(`src/view.ts`), and proves properties of that embedding.

Modelling conventions:
* Documents are `List Char`; positions are `Nat`.
* The host editor's document/transaction primitives (`ChangeDesc` position
  mapping, `touchesRange`, applying changes) are external collaborators of the
  engine; they are modelled here by a list of replaced spans with the standard
  mapping semantics.
* JavaScript function values that are stored inside data (a result's
  `update`/`map`/`getMatch` functions, the function form of `validFor`, the
  completion sources themselves) are defunctionalized to `Nat` identifiers,
  with their implementations supplied by tables in the configuration record;
  this both mirrors JS reference equality on functions and keeps decidable
  equality on the data structures, as used by the engine's own `==` checks.
* A JavaScript `RegExp` is modelled as a core regular expression (with
  derivative-based matching) plus two flags recording whether its source text
  starts with `^` and ends with `$`, which is exactly what `ensureAnchor`
  inspects.
-/

/-! ## Host interface: changes, position mapping, documents -/

/-- One replaced span of a change set: the range `cfrom`..`cto` of the old
document is replaced by `insert`.  Spans are listed sorted and disjoint, in
old-document coordinates. -/
structure ChangeSpec where
  cfrom : Nat
  cto : Nat
  insert : List Char
deriving DecidableEq, Repr

/-- A change description is the list of its replaced spans. -/
abbrev ChangeDesc := List ChangeSpec

/-- Inner loop of position mapping: walk the spans accumulating the length
offset produced by spans that lie entirely before the position. -/
def mapPosGo (pos : Nat) (assoc : Int) : ChangeDesc → Int → Int
  | [], off => pos + off
  | c :: rest, off =>
    if pos < c.cfrom then pos + off
    else if pos < c.cto then c.cfrom + off
    else if pos = c.cto ∧ c.cfrom = c.cto ∧ assoc < 0 then c.cfrom + off
    else mapPosGo pos assoc rest (off + c.insert.length - (c.cto - c.cfrom))

/-- Map a position through a change set.  Positions inside a replaced span map
to the start of the replacement; a position at a pure insertion point stays
before the insertion when `assoc < 0` and moves after it otherwise.  This is
the host's `ChangeDesc.mapPos` contract. -/
def mapPos (changes : ChangeDesc) (pos : Nat) (assoc : Int) : Nat :=
  (mapPosGo pos assoc changes 0).toNat

/-- Whether any replaced span touches the (inclusive) range `f`..`t`; the
host's `ChangeDesc.touchesRange`. -/
def touchesRange (changes : ChangeDesc) (f t : Nat) : Bool :=
  changes.any fun c => decide (c.cfrom ≤ t) && decide (f ≤ c.cto)

/-- Apply a change set to a document.  Spans are in old-document coordinates,
so they are applied right-to-left. -/
def applyChanges (doc : List Char) (changes : ChangeDesc) : List Char :=
  changes.foldr (fun c d => d.take c.cfrom ++ c.insert ++ d.drop c.cto) doc

/-- Slice of a document, the host's `state.sliceDoc(from, to)`. -/
def sliceDoc (doc : List Char) (f t : Nat) : List Char :=
  (doc.drop f).take (t - f)

/-! ## Regular expressions (for `validFor` and `ensureAnchor`) -/

/-- Core regular expressions, matched via Brzozowski derivatives. -/
inductive Regex where
  | emp : Regex
  | eps : Regex
  | chr : Char → Regex
  | alt : Regex → Regex → Regex
  | cat : Regex → Regex → Regex
  | star : Regex → Regex
deriving DecidableEq, Repr

/-- Whether a regex accepts the empty string. -/
def Regex.nullable : Regex → Bool
  | .emp => false
  | .eps => true
  | .chr _ => false
  | .alt a b => a.nullable || b.nullable
  | .cat a b => a.nullable && b.nullable
  | .star _ => true

/-- Brzozowski derivative of a regex with respect to one character. -/
def Regex.deriv : Regex → Char → Regex
  | .emp, _ => .emp
  | .eps, _ => .emp
  | .chr c, x => if c = x then .eps else .emp
  | .alt a b, x => .alt (a.deriv x) (b.deriv x)
  | .cat a b, x =>
    if a.nullable then .alt (.cat (a.deriv x) b) (b.deriv x)
    else .cat (a.deriv x) b
  | .star a, x => .cat (a.deriv x) (.star a)

/-- Whether a regex matches a string exactly (the whole string). -/
def Regex.rmatch (r : Regex) (s : List Char) : Bool :=
  (s.foldl Regex.deriv r).nullable

/-- Model of a JavaScript `RegExp` value: the core pattern plus flags recording
whether the source text starts with `^` and ends with `$` (the two facts that
`ensureAnchor` inspects syntactically). -/
structure JSRegExp where
  caret : Bool
  dollar : Bool
  core : Regex
deriving DecidableEq, Repr

/-- Semantics of `RegExp.test`: search for a match anywhere in the string,
restricted to start at 0 when the pattern is `^`-anchored and to end at the end
of the string when it is `$`-anchored. -/
def JSRegExp.test (e : JSRegExp) (text : List Char) : Bool :=
  (List.range (text.length + 1)).any fun i =>
    (!e.caret || decide (i = 0)) &&
      (List.range (text.length + 1)).any fun j =>
        decide (i ≤ j) && (!e.dollar || decide (j = text.length)) &&
          e.core.rmatch ((text.drop i).take (j - i))

/-- From `completion.ts`: make sure the given regexp has a `$` at its end and,
if `start` is true, a `^` at its start; otherwise return it unchanged. -/
def ensureAnchor (expr : JSRegExp) (start : Bool) : JSRegExp :=
  let addStart := start && !expr.caret
  let addEnd := !expr.dollar
  if !addStart && !addEnd then expr
  else { caret := expr.caret || start, dollar := true, core := expr.core }

/-! ## Completion data model (`completion.ts`) -/

/-- A completion source is matched across updates by identity; we model source
identity as a `Nat`. -/
abbrev SourceId := Nat

/-- The explicit rank of a completion section: a number, or the `"dynamic"`
marker (ordering by the section's best candidate score). -/
inductive SectionRank where
  | num : Int → SectionRank
  | dynamic : SectionRank
deriving DecidableEq, Repr

/-- A `CompletionSection` object: name plus optional rank.  (The `header`
render function is pure UI and not part of the model.) -/
structure CMSection where
  name : String
  rank : Option SectionRank
deriving DecidableEq, Repr

/-- The `section` field of a completion: a plain string or a section object. -/
inductive CMSectionField where
  | str : String → CMSectionField
  | obj : CMSection → CMSectionField
deriving DecidableEq, Repr

/-- The `apply` field of a completion: replacement text, or a custom apply
function (by identity). -/
inductive CMApply where
  | text : String → CMApply
  | fn : Nat → CMApply
deriving DecidableEq, Repr

/-- The `info` field of a completion: a plain string, or an info-producing
function (by identity). -/
inductive CMInfo where
  | text : String → CMInfo
  | fn : Nat → CMInfo
deriving DecidableEq, Repr

/-- A candidate completion (`Completion` in `completion.ts`).  Fields that are
only consumed by the renderer (`commitCharacters`) are omitted. -/
structure Completion where
  label : String
  displayLabel : Option String := none
  detail : Option String := none
  info : Option CMInfo := none
  apply : Option CMApply := none
  ctype : Option String := none
  boost : Option Int := none
  csection : Option CMSectionField := none
deriving DecidableEq, Repr

/-- JavaScript truthiness of an optional string (absent or empty is falsy). -/
def truthyStr : Option String → Bool
  | none => false
  | some s => !(s = "")

/-- JavaScript truthiness of an `apply` value (an empty replacement string is
falsy). -/
def truthyApply : Option CMApply → Bool
  | none => false
  | some (.text s) => !(s = "")
  | some (.fn _) => true

/-- JavaScript truthiness of an `info` value. -/
def truthyInfo : Option CMInfo → Bool
  | none => false
  | some (.text s) => !(s = "")
  | some (.fn _) => true

/-- The `validFor` field of a result: a regexp, or a predicate function (by
identity, implementation supplied by the configuration). -/
inductive ValidFor where
  | re : JSRegExp → ValidFor
  | fn : Nat → ValidFor
deriving DecidableEq, Repr

/-- A result returned by a completion source (`CompletionResult`).  The
`getMatch`, `update` and `map` function fields are defunctionalized to
identifiers. -/
structure CompletionResult where
  rfrom : Nat
  rto : Option Nat := none
  options : List Completion
  validFor : Option ValidFor := none
  filter : Option Bool := none
  getMatch : Option Nat := none
  update : Option Nat := none
  map : Option Nat := none
deriving DecidableEq, Repr

/-- A ranking-time option record (`Option` in `completion.ts`): the completion,
its source, the matched character ranges, and its score. -/
structure CMOption where
  completion : Completion
  source : SourceId
  match_ranges : List Nat
  score : Int
deriving DecidableEq, Repr

/-- Data handed to a result's `update` function in place of the full
`CompletionContext` (the context's state is exposed as its document). -/
structure CtxData where
  doc : List Char
  pos : Nat
  explicit : Bool

/-- The completion configuration, restricted to the fields the embedded code
reads, together with the interpretation tables for defunctionalized function
values. -/
structure CompletionConfig where
  activateOnTyping : Bool
  activateOnCompletion : Completion → Bool
  override : Option (List SourceId)
  selectOnOpen : Bool
  filterStrict : Bool
  aboveCursor : Bool
  compareCompletions : Completion → Completion → Int
  validForFnImpl : Nat → List Char → Nat → Nat → List Char → Bool
  updateImpl : Nat → CompletionResult → Nat → Nat → CtxData → Option CompletionResult
  mapImpl : Nat → CompletionResult → ChangeDesc → Option CompletionResult
  getMatchImpl : Nat → Completion → Option (List Nat) → List Nat

/-- An editor state: document, main-selection head, configuration, and the
language-provided source list (used when `override` is not configured). -/
structure EditorState where
  doc : List Char
  cursor : Nat
  conf : CompletionConfig
  langSources : List SourceId

/-- From `completion.ts`: `cur(state)` is the main selection's `from`. -/
def cur (state : EditorState) : Nat := state.cursor

/-- The completion-related state effects a transaction can carry, generic in
the per-source state type carried by `setActiveEffect`. -/
inductive CMEffectG (σ : Type) where
  | startCompletion : Bool → CMEffectG σ
  | closeCompletion : CMEffectG σ
  | setActive : List σ → CMEffectG σ
  | setSelected : Nat → CMEffectG σ
deriving DecidableEq

/-- A transaction, generic in the per-source state type of its effects:
starting state, document changes, whether an explicit selection was set, the
new cursor position, effects, the `userEvent` annotation, the
`pickedCompletion` annotation, and the wall-clock time at which it is
processed (for `Date.now()`). -/
structure Transaction (σ : Type) where
  startState : EditorState
  changes : ChangeDesc
  selection : Bool
  newCursor : Nat
  effects : List (CMEffectG σ)
  userEvent : Option String
  annotationPicked : Option Completion
  time : Int

/-- The state a transaction results in. -/
def Transaction.state {σ : Type} (tr : Transaction σ) : EditorState :=
  { doc := applyChanges tr.startState.doc tr.changes
    cursor := tr.newCursor
    conf := tr.startState.conf
    langSources := tr.startState.langSources }

/-- Whether the transaction changed the document. -/
def Transaction.docChanged {σ : Type} (tr : Transaction σ) : Bool :=
  !tr.changes.isEmpty

/-- The host's `Transaction.isUserEvent`: the annotation equals the queried
event or extends it at a `.` boundary. -/
def Transaction.isUserEvent {σ : Type} (tr : Transaction σ) (ev : String) : Bool :=
  match tr.userEvent with
  | none => false
  | some u => u == ev || u.startsWith (ev ++ ".")

/-! ## Per-source state machine (`state.ts`, current version) -/

/-- The per-source activation state tag (`State` enum). -/
inductive SrcState where
  | Inactive
  | Pending
  | Result
deriving DecidableEq, Repr

/-! The `UpdateType` bit flags. -/

namespace UpdateType

def Typing : Nat := 1

def Backspacing : Nat := 2

def SimpleInteraction : Nat := 3

def Activate : Nat := 4

def Reset : Nat := 8

def ResetIfTouching : Nat := 16

end UpdateType

/-- Bit test on an `UpdateType` value. -/
def hasFlag (t f : Nat) : Bool := t.land f != 0

/-- From `state.ts`: classify a transaction for the per-source update rule. -/
def getUpdateType {σ : Type} (tr : Transaction σ) (conf : CompletionConfig) : Nat :=
  if tr.isUserEvent "input.complete" &&
      (match tr.annotationPicked with
       | some completion => conf.activateOnCompletion completion
       | none => false) then
    UpdateType.Activate ||| UpdateType.Reset
  else
    let typing := tr.isUserEvent "input.type"
    if typing && conf.activateOnTyping then UpdateType.Activate ||| UpdateType.Typing
    else if typing then UpdateType.Typing
    else if tr.isUserEvent "delete.backward" then UpdateType.Backspacing
    else if tr.selection then UpdateType.Reset
    else if tr.docChanged then UpdateType.ResetIfTouching
    else 0

/-- From `state.ts`: whether a `validFor` value keeps a result alive for the
span `f`..`t` of the given state's document.  A missing `validFor` never keeps
the result; a regexp is tested with both anchors ensured; a function is called
on the span text. -/
def checkValid (validFor : Option ValidFor) (state : EditorState) (f t : Nat) : Bool :=
  match validFor with
  | none => false
  | some v =>
    let text := sliceDoc state.doc f t
    match v with
    | .fn id => state.conf.validForFnImpl id text f t state.doc
    | .re expr => (ensureAnchor expr true).test text

/-- A per-source state record: the plain `ActiveSource` class (carrying an
`Inactive` or `Pending` tag plus the `explicit` flag), or an `ActiveResult`
(tag `Result`) carrying the materialized result, its backspace limit, and its
current span. -/
inductive ActiveSource where
  | base : SourceId → SrcState → Bool → ActiveSource
  | result : SourceId → Bool → Nat → CompletionResult → Nat → Nat → ActiveSource
deriving DecidableEq, Repr

/-- The source identity of a per-source state. -/
def ActiveSource.source : ActiveSource → SourceId
  | .base s _ _ => s
  | .result s _ _ _ _ _ => s

/-- The activation tag of a per-source state. -/
def ActiveSource.stateOf : ActiveSource → SrcState
  | .base _ st _ => st
  | .result _ _ _ _ _ _ => .Result

/-- The `explicit` flag of a per-source state. -/
def ActiveSource.explicit : ActiveSource → Bool
  | .base _ _ e => e
  | .result _ e _ _ _ _ => e

/-- `hasResult()`. -/
def ActiveSource.hasResult : ActiveSource → Bool
  | .base _ _ _ => false
  | .result _ _ _ _ _ _ => true

/-- `isPending`. -/
def ActiveSource.isPending (a : ActiveSource) : Bool :=
  a.stateOf == .Pending

/-- The result's `from` position (0 for non-results; only read on results). -/
def ActiveSource.rfrom : ActiveSource → Nat
  | .base _ _ _ => 0
  | .result _ _ _ _ f _ => f

/-- The result's `to` position (0 for non-results; only read on results). -/
def ActiveSource.rto : ActiveSource → Nat
  | .base _ _ _ => 0
  | .result _ _ _ _ _ t => t

/-- `ActiveSource.map` / `ActiveResult.map`: re-map a state through document
changes.  The plain class returns itself; a result re-maps its positions after
consulting the result's own `map` function, degrading to `Inactive` when that
function drops the result.  (The configuration is passed to resolve the
defunctionalized `map` implementation.) -/
def ActiveSource.mapThrough (a : ActiveSource) (conf : CompletionConfig)
    (changes : ChangeDesc) : ActiveSource :=
  match a with
  | .base _ _ _ => a
  | .result src expl limit res f t =>
    if changes.isEmpty then a
    else
      let mapped : Option CompletionResult :=
        match res.map with
        | some mid => conf.mapImpl mid res changes
        | none => some res
      match mapped with
      | none => .base src .Inactive false
      | some _ =>
        .result src expl (mapPos changes limit (-1)) res
          (mapPos changes f (-1)) (mapPos changes t 1)

/-- `ActiveSource.updateFor` / `ActiveResult.updateFor`: advance a per-source
state through a classified transaction.  The plain class just re-maps; a
result re-validates itself on simple interactions (typing/backspacing), trying
its `map` function, position mapping, `validFor`, and `update` in the source's
order, and degrades otherwise. -/
def ActiveSource.updateFor (a : ActiveSource) (tr : Transaction ActiveSource)
    (type : Nat) : ActiveSource :=
  match a with
  | .base _ _ _ => a.mapThrough tr.startState.conf tr.changes
  | .result src expl limit res f t =>
    if !(hasFlag type UpdateType.SimpleInteraction) then
      a.mapThrough tr.startState.conf tr.changes
    else
      let conf := tr.startState.conf
      let result0 : Option CompletionResult :=
        if res.map.isSome && !tr.changes.isEmpty then
          match res.map with
          | some mid => conf.mapImpl mid res tr.changes
          | none => some res
        else some res
      let f1 := mapPos tr.changes f (-1)
      let t1 := mapPos tr.changes t 1
      let pos := cur tr.state
      match result0 with
      | none => .base src (if hasFlag type UpdateType.Activate then .Pending else .Inactive) false
      | some res1 =>
        if pos > t1 ||
            (hasFlag type UpdateType.Backspacing &&
              (decide (cur tr.startState = f) || decide (pos < limit))) then
          .base src (if hasFlag type UpdateType.Activate then .Pending else .Inactive) false
        else
          let limit1 := mapPos tr.changes limit (-1)
          if checkValid res1.validFor tr.state f1 t1 then
            .result src expl limit1 res1 f1 t1
          else
            match res1.update with
            | some uid =>
              match conf.updateImpl uid res1 f1 t1 ⟨tr.state.doc, pos, false⟩ with
              | some r2 => .result src expl limit1 r2 r2.rfrom (r2.rto.getD (cur tr.state))
              | none => .base src .Pending expl
            | none => .base src .Pending expl

/-- `ActiveSource.touches` / `ActiveResult.touches`: whether the transaction's
changes touch the state's relevant range (the cursor for the plain class, the
result span for a result). -/
def ActiveSource.touches (a : ActiveSource) (tr : Transaction ActiveSource) : Bool :=
  match a with
  | .base _ _ _ => touchesRange tr.changes (cur tr.state) (cur tr.state)
  | .result _ _ _ _ f t => touchesRange tr.changes f t

/-- `ActiveSource.update`: the full per-source transition — reset on hard
resets, activate on typing when configured, advance via `updateFor`, then
process the completion effects in order. -/
def ActiveSource.update (a : ActiveSource) (tr : Transaction ActiveSource)
    (conf : CompletionConfig) : ActiveSource :=
  let type := getUpdateType tr conf
  let value :=
    if hasFlag type UpdateType.Reset ||
        (hasFlag type UpdateType.ResetIfTouching && a.touches tr) then
      ActiveSource.base a.source .Inactive false
    else a
  let value :=
    if hasFlag type UpdateType.Activate && value.stateOf == .Inactive then
      ActiveSource.base a.source .Pending false
    else value
  let value := value.updateFor tr type
  tr.effects.foldl
    (fun v e =>
      match e with
      | .startCompletion b => ActiveSource.base v.source .Pending b
      | .closeCompletion => ActiveSource.base v.source .Inactive false
      | .setActive l => l.foldl (fun v a => if a.source == v.source then a else v) v
      | .setSelected _ => v)
    value

/-! ## Matching (spec-modelled) and ranking (`sortOptions` in `state.ts`) -/

/-- Clamp a match score into a fixed band.  The spec leaves the exact numeric
weighting of match quality open as tunable policy, so the model keeps scores
bounded by construction. -/
def clampScore (x : Int) : Int := max (-1000) (min 1000 x)

/-- Positions (in the candidate) at which the pattern's characters match as a
subsequence, leftmost-greedy. -/
def subseqPositions : List Char → List Char → Nat → Option (List Nat)
  | [], _, _ => some []
  | _ :: _, [], _ => none
  | p :: ps, c :: cs, i =>
    if p = c then (subseqPositions ps cs (i + 1)).map (fun l => i :: l)
    else subseqPositions (p :: ps) cs (i + 1)
termination_by _ l _ => l.length

/-- Turn an ascending position list into a flat list of `[from, to)` range
endpoints, coalescing consecutive positions. -/
def coalesceGo (start prev : Nat) : List Nat → List Nat
  | [] => [start, prev + 1]
  | p :: ps => if p = prev + 1 then coalesceGo start p ps else start :: (prev + 1) :: coalesceGo p p ps

/-- Matched-range list of a position list. -/
def coalesce : List Nat → List Nat
  | [] => []
  | p :: ps => coalesceGo p p ps

/-- Modelled from the spec: `filter.ts` (the `FuzzyMatcher`) is not among the
provided sources.  Fuzzy matching is a subsequence match yielding matched
character ranges and a score; fewer gaps and an earlier start score higher,
with the exact weighting clamped (policy per the spec's design notes). -/
def fuzzyMatch (pattern label : List Char) : Option (List Nat × Int) :=
  match pattern with
  | [] => some ([], 0)
  | _ =>
    (subseqPositions pattern label 0).map fun ps =>
      let ranges := coalesce ps
      (ranges,
        clampScore (1000 - 100 * ((ranges.length / 2 : Nat) - 1 : Int) - 10 * (ps.headD 0 : Int)))

/-- First index at which `pattern` occurs contiguously in the text. -/
def indexOfSub (pattern : List Char) : List Char → Nat → Option Nat
  | [], i => if pattern.isEmpty then some i else none
  | c :: cs, i => if pattern.isPrefixOf (c :: cs) then some i else indexOfSub pattern cs (i + 1)

/-- Modelled from the spec: `filter.ts` (the `StrictMatcher`) is not among the
provided sources.  Strict matching requires the pattern to occur as a
contiguous substring of the label; an earlier occurrence scores higher, with
the weighting clamped. -/
def strictMatch (pattern label : List Char) : Option (List Nat × Int) :=
  match pattern with
  | [] => some ([], 0)
  | _ =>
    (indexOfSub pattern label 0).map fun i =>
      ([i, i + pattern.length], clampScore (1000 - 10 * (i : Int)))

/-- The matcher selected by the configuration (`filterStrict`). -/
def matcherMatch (conf : CompletionConfig) (pattern label : List Char) :
    Option (List Nat × Int) :=
  if conf.filterStrict then strictMatch pattern label else fuzzyMatch pattern label

/-- From `state.ts`: quality measure used to pick a preferred option when two
options with the same label occur in the result. -/
def score (c : Completion) : Int :=
  (c.boost.getD 0) * 100 + (if truthyApply c.apply then 10 else 0) +
    (if truthyInfo c.info then 5 else 0) + (if truthyStr c.ctype then 1 else 0)

/-- The name of a `section` field value. -/
def sectionNameOf : CMSectionField → String
  | .str s => s
  | .obj o => o.name

/-- The section name attached to a ranked option, if any. -/
def optSectionName (o : CMOption) : Option String :=
  o.completion.csection.map sectionNameOf

/-- Accumulator of the option-building pass of `sortOptions`: the options
pushed so far, the section registry, and the dynamic-rank score table. -/
structure BuildAcc where
  options : List CMOption
  sections : List CMSection
  dynScore : List (String × Int)
deriving Repr

/-- The `addOption` closure of `sortOptions`: push an option and register its
section (first occurrence of a name wins). -/
def addOption (acc : BuildAcc) (o : CMOption) : BuildAcc :=
  let options := acc.options ++ [o]
  match o.completion.csection with
  | none => { acc with options }
  | some sec =>
    let name := sectionNameOf sec
    if acc.sections.any (fun s => s.name == name) then { acc with options }
    else
      let secObj : CMSection := match sec with | .str n => ⟨n, none⟩ | .obj ob => ob
      { acc with options := options, sections := acc.sections ++ [secObj] }

/-- Record a dynamic section's best score (`Math.max(score, dyn[name] || -1e9)`). -/
def dynUpdate (dyn : List (String × Int)) (name : String) (sc : Int) : List (String × Int) :=
  (name, max sc ((dyn.lookup name).getD (-1000000000))) :: dyn

/-- Option-building pass of `sortOptions` for one per-source state: a source
with `filter: false` contributes every candidate with a synthetic descending
score; otherwise candidates are matched against the span text, scored, and
boosted, and dynamic section scores are recorded. -/
def addSourceOptions (state : EditorState) (acc : BuildAcc) (a : ActiveSource) : BuildAcc :=
  match a with
  | .base _ _ _ => acc
  | .result src _ _ res f t =>
    let conf := state.conf
    if res.filter == some false then
      res.options.foldl
        (fun acc opt =>
          addOption acc
            ⟨opt, src,
              (match res.getMatch with
               | some gid => conf.getMatchImpl gid opt none
               | none => []),
              1000000000 - (acc.options.length : Int)⟩)
        acc
    else
      let pattern := sliceDoc state.doc f t
      res.options.foldl
        (fun acc opt =>
          match matcherMatch conf pattern opt.label.toList with
          | none => acc
          | some (matched, mscore) =>
            let matched1 :=
              if !(truthyStr opt.displayLabel) then matched
              else
                match res.getMatch with
                | some gid => conf.getMatchImpl gid opt (some matched)
                | none => []
            let sc := mscore + opt.boost.getD 0
            let acc1 := addOption acc ⟨opt, src, matched1, sc⟩
            match opt.csection with
            | some (.obj ob) =>
              if ob.rank == some .dynamic then
                { acc1 with dynScore := dynUpdate acc1.dynScore ob.name sc }
              else acc1
            | _ => acc1)
        acc

/-- The full option-building pass of `sortOptions` over all per-source states. -/
def collectOptions (state : EditorState) (active : List ActiveSource) : BuildAcc :=
  active.foldl (addSourceOptions state) ⟨[], [], []⟩

/-- The numeric rank of a section (`1e9` when absent or dynamic). -/
def numRankOf (s : CMSection) : Int :=
  match s.rank with
  | some (.num n) => n
  | _ => 1000000000

/-- The section comparator of `sortOptions`: dynamic sections by best score,
then numeric rank, then name.  A missing dynamic-score entry makes the first
component fall through (as `NaN` is falsy in the source). -/
def sectionCmp (dyn : List (String × Int)) (a b : CMSection) : Int :=
  let dynPart : Int :=
    if a.rank == some .dynamic && b.rank == some .dynamic then
      match dyn.lookup b.name, dyn.lookup a.name with
      | some db, some da => db - da
      | _, _ => 0
    else 0
  if dynPart != 0 then dynPart
  else if numRankOf a - numRankOf b != 0 then numRankOf a - numRankOf b
  else if a.name < b.name then -1 else 1

/-- Stable insertion of an element into a list sorted by a JS-style comparator
(an element is inserted after every element it does not strictly precede). -/
def insSorted (le : α → α → Bool) (x : α) : List α → List α
  | [] => [x]
  | y :: ys => if le y x then y :: insSorted le x ys else x :: y :: ys

/-- Model of `Array.prototype.sort` with a comparator: a stable sort placing
`a` before `b` when `cmp a b ≤ 0`. -/
def stableSortBy (cmp : α → α → Int) (l : List α) : List α :=
  l.foldl (fun acc x => insSorted (fun a b => decide (cmp a b ≤ 0)) x acc) []

/-- The per-section score offsets of `sortOptions`: sections are sorted by the
section comparator and assigned offsets `-1e5, -2e5, …` in that order. -/
def sectionOrderOf (acc : BuildAcc) : List (String × Int) :=
  ((stableSortBy (sectionCmp acc.dynScore) acc.sections).enum).map
    fun p => (p.2.name, -100000 * ((p.1 : Int) + 1))

/-- Fold each option's section offset into its score. -/
def applySectionOffsets (options : List CMOption) (ord : List (String × Int)) :
    List CMOption :=
  options.map fun o =>
    match optSectionName o with
    | some n => { o with score := o.score + (ord.lookup n).getD 0 }
    | none => o

/-- The final comparator of `sortOptions`: descending score, ties broken by
the configured completion comparator. -/
def optCmp (conf : CompletionConfig) (a b : CMOption) : Int :=
  if b.score - a.score != 0 then b.score - a.score
  else conf.compareCompletions a.completion b.completion

/-- The sorted (pre-deduplication) option list of `sortOptions`. -/
def sortedOptionList (active : List ActiveSource) (state : EditorState) : List CMOption :=
  let acc := collectOptions state active
  let withOffsets :=
    if acc.sections.isEmpty then acc.options
    else applySectionOffsets acc.options (sectionOrderOf acc)
  stableSortBy (optCmp state.conf) withOffsets

/-- The push condition of the deduplication pass: the current option starts a
new group unless it shares label, detail, replacement action and boost with the
previously seen one and their types do not conflict. -/
def pushCond (prev c : Completion) : Bool :=
  !(prev.label == c.label) || !(prev.detail == c.detail) ||
    (prev.ctype.isSome && c.ctype.isSome && !(prev.ctype == c.ctype)) ||
    !(prev.apply == c.apply) || !(prev.boost == c.boost)

/-- One step of the deduplication pass of `sortOptions`: push new options,
replace the last kept option when the current duplicate has strictly higher
quality, and otherwise drop it; the previously *seen* completion is tracked in
either case. -/
def dedupStep (acc : List CMOption × Option Completion) (opt : CMOption) :
    List CMOption × Option Completion :=
  match acc.2 with
  | none => (acc.1 ++ [opt], some opt.completion)
  | some prev =>
    if pushCond prev opt.completion then (acc.1 ++ [opt], some opt.completion)
    else if score opt.completion > score prev then (acc.1.dropLast ++ [opt], some opt.completion)
    else (acc.1, some opt.completion)

/-- The deduplication pass of `sortOptions`. -/
def dedup (l : List CMOption) : List CMOption :=
  (l.foldl dedupStep ([], none)).1

/-- From `state.ts`: the full ranking step — build, offset, sort, deduplicate. -/
def sortOptions (active : List ActiveSource) (state : EditorState) : List CMOption :=
  dedup (sortedOptionList active state)

/-! ## Dialog and aggregate state (`state.ts`) -/

/-- The content attributes derived from an open dialog (`makeAttrs`). -/
def makeAttrs (id : String) (selected : Int) : List (String × String) :=
  let base := [("aria-autocomplete", "list"), ("aria-haspopup", "listbox"), ("aria-controls", id)]
  if selected > -1 then base ++ [("aria-activedescendant", id ++ "-" ++ toString selected)]
  else base

/-- The open completion dialog (`CompletionDialog`).  The tooltip record is
represented by its position and `above` flag; its `create` function is the
constant renderer hook and carries no state. -/
structure CompletionDialog where
  options : List CMOption
  attrs : List (String × String)
  tooltipPos : Nat
  tooltipAbove : Bool
  timestamp : Int
  selected : Int
  disabled : Bool
deriving DecidableEq, Repr

/-- `CompletionDialog.setSelected`: ignore when unchanged or out of range,
otherwise rebuild only the attributes and the selected index. -/
def CompletionDialog.setSelected (d : CompletionDialog) (selected : Int) (id : String) :
    CompletionDialog :=
  if selected == d.selected || selected ≥ (d.options.length : Int) then d
  else { d with attrs := makeAttrs id selected, selected := selected }

/-- `CompletionDialog.map`: re-map the tooltip anchor through changes. -/
def CompletionDialog.mapThrough (d : CompletionDialog) (changes : ChangeDesc) :
    CompletionDialog :=
  { d with tooltipPos := mapPos changes d.tooltipPos (-1) }

/-- `CompletionDialog.setDisabled`. -/
def CompletionDialog.setDisabled (d : CompletionDialog) : CompletionDialog :=
  { d with disabled := true }

/-- The tooltip anchor of a fresh dialog: the least result `from` (1e8 when no
source has a result). -/
def tooltipPosOf (active : List ActiveSource) : Nat :=
  active.foldl
    (fun a b => match b with | .result _ _ _ _ f _ => min a f | _ => a)
    100000000

/-- `CompletionDialog.build`: disable the previous dialog while waiting on
pending sources, run the ranking step, keep a disabled previous dialog when the
ranking is empty but something is still pending, and otherwise open a fresh
dialog, preserving the previously selected completion when possible. -/
def CompletionDialog.build (active : List ActiveSource) (state : EditorState) (id : String)
    (prev : Option CompletionDialog) (conf : CompletionConfig) (didSetActive : Bool)
    (now : Int) : Option CompletionDialog :=
  if prev.isSome && !didSetActive && active.any ActiveSource.isPending then
    prev.map CompletionDialog.setDisabled
  else
    let options := sortOptions active state
    if options.isEmpty then
      if active.any ActiveSource.isPending then prev.map CompletionDialog.setDisabled else none
    else
      let selected0 : Int := if state.conf.selectOnOpen then 0 else -1
      let selected : Int :=
        match prev with
        | some p =>
          if !(p.selected == selected0) && !(p.selected == -1) then
            match p.options.get? p.selected.toNat with
            | some sv =>
              match options.findIdx? (fun o => o.completion == sv.completion) with
              | some i => (i : Int)
              | none => selected0
            | none => selected0
          else selected0
        | none => selected0
      some
        { options := options
          attrs := makeAttrs id selected
          tooltipPos := tooltipPosOf active
          tooltipAbove := conf.aboveCursor
          timestamp := match prev with | some p => p.timestamp | none => now
          selected := selected
          disabled := false }

/-- The sequence of materialized results of a per-source state list. -/
def resultsOf (l : List ActiveSource) : List CompletionResult :=
  l.filterMap fun a =>
    match a with
    | .result _ _ _ r _ _ => some r
    | _ => none

/-- From `state.ts`: `sameResults` walks both lists skipping non-results and
compares the result values in sequence, which is equality of the extracted
result sequences. -/
def sameResults (a b : List ActiveSource) : Bool :=
  resultsOf a == resultsOf b

/-- The aggregate completion state (`CompletionState`): per-source states, the
session id, and the open dialog (or `none`). -/
structure CompletionState where
  active : List ActiveSource
  id : String
  openDialog : Option CompletionDialog
deriving DecidableEq, Repr

/-- `CompletionState.start()`: empty, no dialog (the id is a fresh random
string; here it is a parameter). -/
def CompletionState.start (id : String) : CompletionState :=
  ⟨[], id, none⟩

/-- The configured source list: the override when present, else the
language-provided sources. -/
def sourcesOf (state : EditorState) : List SourceId :=
  state.conf.override.getD state.langSources

/-- The per-source list recomputation of `CompletionState.update`: for every
configured source, the previous per-source state (matched by identity) or a
fresh one (`Pending` when some sibling is already active), advanced through the
transaction. -/
def updActive0 (s : CompletionState) (tr : Transaction ActiveSource) : List ActiveSource :=
  (sourcesOf tr.state).map fun src =>
    (match s.active.find? (fun (a : ActiveSource) => a.source == src) with
     | some v => v
     | none =>
       ActiveSource.base src
         (if s.active.any (fun a => a.stateOf != SrcState.Inactive) then .Pending else .Inactive)
         false).update tr tr.state.conf

/-- The recomputed per-source list, reusing the previous list object when every
entry is unchanged. -/
def updActive (s : CompletionState) (tr : Transaction ActiveSource) : List ActiveSource :=
  let active0 := updActive0 s tr
  if active0.length == s.active.length && (active0.zip s.active).all (fun p => p.1 == p.2) then
    s.active
  else active0

/-- Whether the transaction carries a `setActiveEffect`. -/
def updDidSet (tr : Transaction ActiveSource) : Bool :=
  tr.effects.any fun e => match e with | .setActive _ => true | _ => false

/-- The previous dialog, remapped through the transaction's changes. -/
def updOpen1 (s : CompletionState) (tr : Transaction ActiveSource) : Option CompletionDialog :=
  if s.openDialog.isSome && tr.docChanged then s.openDialog.map (·.mapThrough tr.changes)
  else s.openDialog

/-- The dialog decision of `CompletionState.update`: rebuild when the selection
changed, a result span was touched, the set of materialized results changed, or
results were delivered; drop a disabled dialog once nothing is pending;
otherwise keep the remapped dialog. -/
def updOpen2 (s : CompletionState) (tr : Transaction ActiveSource) : Option CompletionDialog :=
  let active := updActive s tr
  let open1 := updOpen1 s tr
  if tr.selection ||
      active.any (fun a => a.hasResult && touchesRange tr.changes a.rfrom a.rto) ||
      !sameResults active s.active || updDidSet tr then
    CompletionDialog.build active tr.state s.id open1 tr.state.conf (updDidSet tr) tr.time
  else if (match open1 with | some d => d.disabled | none => false) &&
      !active.any ActiveSource.isPending then
    none
  else open1

/-- The dead-result deactivation of `CompletionState.update`: with no dialog,
nothing pending and some result materialized, return the result sources to
`Inactive`. -/
def updActive2 (s : CompletionState) (tr : Transaction ActiveSource) : List ActiveSource :=
  let active := updActive s tr
  if (updOpen2 s tr).isNone && active.all (fun a => !a.isPending) &&
      active.any ActiveSource.hasResult then
    active.map fun a =>
      if a.hasResult then ActiveSource.base a.source .Inactive false else a
  else active

/-- The `setSelectedEffect` processing of `CompletionState.update`. -/
def updOpen3 (s : CompletionState) (tr : Transaction ActiveSource) : Option CompletionDialog :=
  tr.effects.foldl
    (fun o e =>
      match e with
      | .setSelected n => o.map (fun d => d.setSelected (n : Int) s.id)
      | _ => o)
    (updOpen2 s tr)

/-- `CompletionState.update`: sync the per-source list with the configured
sources, advance each source's state machine, decide whether to rebuild, remap
or drop the dialog, deactivate dead results, and process selection effects,
reusing the previous state object when nothing changed. -/
def CompletionState.update (s : CompletionState) (tr : Transaction ActiveSource) :
    CompletionState :=
  if updActive2 s tr == s.active && updOpen3 s tr == s.openDialog then s
  else ⟨updActive2 s tr, s.id, updOpen3 s tr⟩

/-- The states reachable by the completion state field: the fresh state, plus
anything obtained by applying `update` for a transaction departing from the
current editor state.  The first component tracks the editor state the
completion state currently corresponds to. -/
inductive Reachable : EditorState → CompletionState → Prop where
  | start : ∀ (es : EditorState) (id : String), Reachable es (CompletionState.start id)
  | step : ∀ (es : EditorState) (s : CompletionState) (tr : Transaction ActiveSource),
      Reachable es s → tr.startState = es → Reachable tr.state (s.update tr)

/-- Whether a completion state's per-source list is synchronized with the
configured sources of an editor state: same sources in order, and looking a
source up in the list returns the entry at that source's position (which is
what `update`'s use of `find` relies on).  This holds of every state `update`
produces. -/
def SyncedB (es : EditorState) (s : CompletionState) : Bool :=
  s.active.map ActiveSource.source == sourcesOf es &&
    ((sourcesOf es).zip s.active).all fun p =>
      s.active.find? (fun a => a.source == p.1) == some p.2

/-- A no-op transaction: no document change, no selection change, no effects,
no user-event annotation. -/
def IsNoop (tr : Transaction ActiveSource) : Prop :=
  tr.changes = [] ∧ tr.selection = false ∧ tr.effects = [] ∧ tr.userEvent = none

/-! ## Scheduler (`view.ts`) and its per-source state machine

The scheduler in `view.ts` pairs with the `explicitPos` revision of the
per-source state machine in `state.ts` (an explicitly-activated source records
the activation position, `-1` meaning none). -/

namespace Sched

/-- Per-source state, `explicitPos` revision: plain `ActiveSource`
(`Inactive`/`Pending` plus the explicit activation position) or `ActiveResult`. -/
inductive ActiveSource where
  | base : SourceId → SrcState → Int → ActiveSource
  | result : SourceId → Int → CompletionResult → Nat → Nat → ActiveSource
deriving DecidableEq, Repr

/-- The source identity. -/
def ActiveSource.source : ActiveSource → SourceId
  | .base s _ _ => s
  | .result s _ _ _ _ => s

/-- The activation tag. -/
def ActiveSource.stateOf : ActiveSource → SrcState
  | .base _ st _ => st
  | .result _ _ _ _ _ => .Result

/-- The explicit activation position (`-1` when not explicit). -/
def ActiveSource.explicitPos : ActiveSource → Int
  | .base _ _ e => e
  | .result _ e _ _ _ => e

/-- `hasResult()`. -/
def ActiveSource.hasResult : ActiveSource → Bool
  | .base _ _ _ => false
  | .result _ _ _ _ _ => true

/-- Transactions carrying this revision's per-source states in their
`setActiveEffect` payloads. -/
abbrev Tr := Transaction Sched.ActiveSource

/-- `map` of this revision: the plain class re-maps its explicit position; a
result re-maps its positions after consulting its `map` function. -/
def ActiveSource.mapThrough (a : ActiveSource) (conf : CompletionConfig)
    (changes : ChangeDesc) : ActiveSource :=
  match a with
  | .base src st ep =>
    if changes.isEmpty || ep < 0 then a
    else .base src st (mapPos changes ep.toNat (-1) : Nat)
  | .result src ep res f t =>
    if changes.isEmpty then a
    else
      let mapped : Option CompletionResult :=
        match res.map with
        | some mid => conf.mapImpl mid res changes
        | none => some res
      match mapped with
      | none => .base src .Inactive (-1)
      | some _ =>
        .result src (if ep < 0 then -1 else (mapPos changes ep.toNat (-1) : Nat)) res
          (mapPos changes f (-1)) (mapPos changes t 1)

/-- `updateFor` of this revision. -/
def ActiveSource.updateFor (a : ActiveSource) (tr : Tr) (type : Nat) : ActiveSource :=
  match a with
  | .base _ _ _ => a.mapThrough tr.startState.conf tr.changes
  | .result src ep res f t =>
    if !(hasFlag type UpdateType.SimpleInteraction) then
      a.mapThrough tr.startState.conf tr.changes
    else
      let conf := tr.startState.conf
      let result0 : Option CompletionResult :=
        if res.map.isSome && !tr.changes.isEmpty then
          match res.map with
          | some mid => conf.mapImpl mid res tr.changes
          | none => some res
        else some res
      let f1 := mapPos tr.changes f (-1)
      let t1 := mapPos tr.changes t 1
      let pos := cur tr.state
      match result0 with
      | none =>
        .base src (if hasFlag type UpdateType.Activate then .Pending else .Inactive) (-1)
      | some res1 =>
        if (if ep < 0 then decide (pos ≤ f1) else decide (pos < f)) || decide (pos > t1) ||
            (hasFlag type UpdateType.Backspacing && decide (cur tr.startState = f)) then
          .base src (if hasFlag type UpdateType.Activate then .Pending else .Inactive) (-1)
        else
          let ep1 : Int := if ep < 0 then -1 else (mapPos tr.changes ep.toNat (-1) : Nat)
          if checkValid res1.validFor tr.state f1 t1 then
            .result src ep1 res1 f1 t1
          else
            match res1.update with
            | some uid =>
              match conf.updateImpl uid res1 f1 t1 ⟨tr.state.doc, pos, ep1 ≥ 0⟩ with
              | some r2 => .result src ep1 r2 r2.rfrom (r2.rto.getD (cur tr.state))
              | none => .base src .Pending ep1
            | none => .base src .Pending ep1

/-- `touches` of this revision. -/
def ActiveSource.touches (a : ActiveSource) (tr : Tr) : Bool :=
  match a with
  | .base _ _ _ => touchesRange tr.changes (cur tr.state) (cur tr.state)
  | .result _ _ _ f t => touchesRange tr.changes f t

/-- `update` of this revision: reset, activate, advance, then process effects
(an explicit start records the cursor position). -/
def ActiveSource.update (a : ActiveSource) (tr : Tr) (conf : CompletionConfig) :
    ActiveSource :=
  let type := getUpdateType tr conf
  let value :=
    if hasFlag type UpdateType.Reset ||
        (hasFlag type UpdateType.ResetIfTouching && a.touches tr) then
      ActiveSource.base a.source .Inactive (-1)
    else a
  let value :=
    if hasFlag type UpdateType.Activate && value.stateOf == SrcState.Inactive then
      ActiveSource.base a.source .Pending (-1)
    else value
  let value := value.updateFor tr type
  tr.effects.foldl
    (fun v e =>
      match e with
      | .startCompletion b =>
        ActiveSource.base v.source .Pending (if b then (cur tr.state : Int) else -1)
      | .closeCompletion => ActiveSource.base v.source .Inactive (-1)
      | .setActive l => l.foldl (fun v a => if a.source == v.source then a else v) v
      | .setSelected _ => v)
    value

/-- An in-flight query record (`RunningQuery` in `view.ts`): the per-source
state it was started for, its start time, the backlog of transactions observed
since, and its resolution (`none` = not done, `some none` = the source returned
null, `some (some r)` = a concrete result).  The abort listeners live on the
query context and are not part of the replayable state. -/
structure RunningQuery where
  active : ActiveSource
  time : Int
  updates : List Tr
  done : Option (Option CompletionResult)

/-- `MaxUpdateCount` from `view.ts`. -/
def MaxUpdateCount : Nat := 50

/-- `MinAbortTime` from `view.ts`. -/
def MinAbortTime : Int := 1000

/-- From `completionPlugin.update`: whether a batch of transactions forces a
hard reset — an update-type with the `Reset` flag, or a selection/document
change that is not a simple typing or backspacing interaction. -/
def doesReset (trs : List Tr) (conf : CompletionConfig) : Bool :=
  trs.any fun tr =>
    let type := getUpdateType tr conf
    hasFlag type UpdateType.Reset ||
      (tr.selection || tr.docChanged) && !(hasFlag type UpdateType.SimpleInteraction)

/-- The body of `completionPlugin.update`'s per-query loop: abort (signal the
abort listeners, detach the record, discard its eventual answer — collectively
`none`) when the batch resets or the backlog including the incoming
transactions exceeds `MaxUpdateCount` while the query is older than
`MinAbortTime`; otherwise append the transactions to the backlog. -/
def queryStep (q : RunningQuery) (trs : List Tr) (conf : CompletionConfig) (now : Int) :
    Option RunningQuery :=
  if doesReset trs conf ||
      (decide (q.updates.length + trs.length > MaxUpdateCount) &&
        decide (now - q.time > MinAbortTime)) then
    none
  else some { q with updates := q.updates ++ trs }

/-- A view update as seen by `completionPlugin.update`: its transactions and
whether the completion state field is unchanged from the start state (compared
by identity in the source). -/
structure ViewUpdate where
  transactions : List Tr
  fieldUnchanged : Bool

/-- `update.selectionSet`. -/
def ViewUpdate.selectionSet (u : ViewUpdate) : Bool :=
  u.transactions.any (·.selection)

/-- `update.docChanged`. -/
def ViewUpdate.vDocChanged (u : ViewUpdate) : Bool :=
  u.transactions.any (·.docChanged)

/-- The in-flight-query bookkeeping of `completionPlugin.update`: bail out when
the update changes neither selection nor document and leaves the completion
state unchanged; otherwise run the per-query loop over the running queries. -/
def pluginUpdateRunning (running : List RunningQuery) (u : ViewUpdate)
    (conf : CompletionConfig) (now : Int) : List RunningQuery :=
  if !u.selectionSet && !u.vDocChanged && u.fieldUnchanged then running
  else running.filterMap fun q => queryStep q u.transactions conf now

/-- From `completionPlugin.accept`: the candidate result state for a finished
query — positioned at the answer's span, with a missing `to` defaulting to the
cursor of the state the first backlogged transaction started at (or the
current view state when the backlog is empty). -/
def initialActive (q : RunningQuery) (done : CompletionResult) (viewState : EditorState) :
    ActiveSource :=
  .result q.active.source q.active.explicitPos done done.rfrom
    (done.rto.getD (cur (match q.updates with | [] => viewState | u :: _ => u.startState)))

/-- From `completionPlugin.accept`: fold the backlogged transactions over the
candidate result state through the per-source update rule. -/
def acceptResult (q : RunningQuery) (done : CompletionResult) (viewState : EditorState)
    (conf : CompletionConfig) : ActiveSource :=
  q.updates.foldl (fun a tr => a.update tr conf) (initialActive q done viewState)

/-- Modelled from the spec: the replay-equivalence reference semantics — a
query that resolved instantly at the session state and then had the
transactions applied to it one at a time through the state machine. -/
def replayInstant (conf : CompletionConfig) (a : ActiveSource) : List Tr → ActiveSource
  | [] => a
  | tr :: rest => replayInstant conf (a.update tr conf) rest

/-- Actions a scheduler callback can take against the host. -/
inductive SchedulerAction where
  | dispatchEffects : List (CMEffectG ActiveSource) → SchedulerAction
  | logToHost : SchedulerAction

/-- From `startQuery`'s rejection handler: dispatch a close-completion effect,
and report the error to the host's exception log. -/
def startQueryRejectActions : List SchedulerAction :=
  [.dispatchEffects [.closeCompletion], .logToHost]

end Sched

/-! ## Basic lemmas about the embedded operations -/

/-- Two lists are equal when their lengths agree and their zip agrees
pointwise. -/
theorem eq_of_zip_all {α : Type} [DecidableEq α] :
    ∀ (l1 l2 : List α), l1.length = l2.length →
      ((l1.zip l2).all fun p => p.1 == p.2) = true → l1 = l2 := by
  intro l1
  induction l1 with
  | nil => intro l2 h _; cases l2 <;> simp_all
  | cons x xs ih =>
    intro l2 h hall
    cases l2 with
    | nil => simp at h
    | cons y ys =>
      simp only [List.zip_cons_cons, List.all_cons, Bool.and_eq_true, beq_iff_eq] at hall
      simp only [List.length_cons, Nat.add_right_cancel_iff] at h
      exact hall.1 ▸ (ih ys h hall.2) ▸ rfl

/-- The `active` component of an updated completion state. -/
theorem update_active (s : CompletionState) (tr : Transaction ActiveSource) :
    (s.update tr).active = updActive2 s tr := by
  unfold CompletionState.update
  split
  · next h =>
    have h1 := (Bool.and_eq_true _ _).mp h
    exact (beq_iff_eq.mp h1.1).symm
  · rfl

/-- The `openDialog` component of an updated completion state. -/
theorem update_open (s : CompletionState) (tr : Transaction ActiveSource) :
    (s.update tr).openDialog = updOpen3 s tr := by
  unfold CompletionState.update
  split
  · next h =>
    have h1 := (Bool.and_eq_true _ _).mp h
    exact (beq_iff_eq.mp h1.2).symm
  · rfl

/-- The session id is never changed by an update. -/
theorem update_id (s : CompletionState) (tr : Transaction ActiveSource) :
    (s.update tr).id = s.id := by
  unfold CompletionState.update
  split <;> rfl

/-- A transaction with no user-event annotation matches no user event. -/
theorem isUserEvent_none {σ : Type} (tr : Transaction σ) (h : tr.userEvent = none)
    (ev : String) : tr.isUserEvent ev = false := by
  simp [Transaction.isUserEvent, h]

/-- A selection-only transaction (no user event) classifies as a hard reset. -/
theorem getUpdateType_selection_only {σ : Type} (tr : Transaction σ) (conf : CompletionConfig)
    (hev : tr.userEvent = none) (hsel : tr.selection = true) :
    getUpdateType tr conf = UpdateType.Reset := by
  simp [getUpdateType, isUserEvent_none tr hev, hsel]

/-! ## Shared concrete instances for witnesses and counterexamples -/

/-- A concrete configuration for concrete evaluations: typing activates,
selection on open, fuzzy matching, trivial comparator and implementation
tables. -/
def confEx : CompletionConfig :=
  { activateOnTyping := true
    activateOnCompletion := fun _ => false
    override := none
    selectOnOpen := true
    filterStrict := false
    aboveCursor := false
    compareCompletions := fun _ _ => 0
    validForFnImpl := fun _ _ _ _ _ => false
    updateImpl := fun _ _ _ _ _ => none
    mapImpl := fun _ _ _ => none
    getMatchImpl := fun _ _ _ => [] }

/-- A concrete editor state: empty document, cursor 0, no sources. -/
def esEx : EditorState :=
  { doc := [], cursor := 0, conf := confEx, langSources := [] }

/-- A concrete completion result spanning 0..5. -/
def resEx : CompletionResult :=
  { rfrom := 0, rto := some 5, options := [{ label := "alpha" }] }

/-- A concrete selection-only transaction whose new cursor (2) lies inside the
span 0..5 of `c4srcEx`. -/
def trSelEx : Transaction ActiveSource :=
  { startState := { esEx with cursor := 3, langSources := [0] }
    changes := []
    selection := true
    newCursor := 2
    effects := []
    userEvent := none
    annotationPicked := none
    time := 0 }

/-- A concrete per-source `Result` state over `resEx` with span 0..5. -/
def c4srcEx : ActiveSource := .result 0 false 0 resEx 0 5

/-! ## C1: replay equivalence of the scheduler's fold -/

/-- C1: for a query that resolves with a concrete result after observing a
backlog of transactions, the scheduler's accept step — an `ActiveResult` built
at the answer's span, folded through the backlog via the per-source update
rule — produces exactly the state of a query that resolved instantly and then
had the same transactions applied one at a time. -/
theorem c1_replay_equivalence (q : Sched.RunningQuery) (done : CompletionResult)
    (viewState : EditorState) (conf : CompletionConfig) :
    Sched.acceptResult q done viewState conf =
      Sched.replayInstant conf (Sched.initialActive q done viewState) q.updates := by
  unfold Sched.acceptResult
  generalize Sched.initialActive q done viewState = a
  induction q.updates generalizing a with
  | nil => rfl
  | cons tr rest ih =>
    simp only [List.foldl_cons, Sched.replayInstant]
    exact ih _

/-! ## C4: selection-only transactions -/

/-- C4 counterexample: a selection-only transaction whose new cursor (2) lies
inside the result span 0..5 still turns the `Result` state `Inactive`, so the
claimed "otherwise unchanged" branch does not exist in the code. -/
theorem c4_counterexample :
    c4srcEx.rfrom ≤ trSelEx.newCursor ∧ trSelEx.newCursor ≤ c4srcEx.rto ∧
      trSelEx.selection = true ∧ trSelEx.changes = [] ∧ trSelEx.effects = [] ∧
      trSelEx.userEvent = none ∧
      ActiveSource.update c4srcEx trSelEx confEx = .base 0 .Inactive false ∧
      ActiveSource.update c4srcEx trSelEx confEx ≠ c4srcEx := by
  decide

/-- C4 (amended): advancing a `Result` state through a selection-only
transaction (no document change, no user event, no completion effects) yields
`Inactive`, regardless of whether the new cursor lies inside or outside the
result's span. -/
theorem c4_amended (src : SourceId) (expl : Bool) (limit : Nat) (res : CompletionResult)
    (f t : Nat) (tr : Transaction ActiveSource) (conf : CompletionConfig)
    (hsel : tr.selection = true) (hch : tr.changes = []) (hev : tr.userEvent = none)
    (heff : tr.effects = []) :
    ActiveSource.update (.result src expl limit res f t) tr conf =
      .base src .Inactive false := by
  unfold ActiveSource.update
  rw [getUpdateType_selection_only tr conf hev hsel]
  simp +decide [heff, ActiveSource.updateFor, ActiveSource.mapThrough, ActiveSource.source,
    ActiveSource.stateOf, hch]

/-- C4 witness: the amended theorem applied at the concrete instance. -/
theorem c4_amended_witness :
    ActiveSource.update (.result 0 false 0 resEx 0 5) trSelEx confEx =
      .base 0 .Inactive false :=
  c4_amended 0 false 0 resEx 0 5 trSelEx confEx rfl rfl rfl rfl

/-! ## C7: query rejection closes the session -/

/-- Processing a transaction whose only effect is the close-completion effect
leaves every per-source state machine `Inactive`. -/
theorem update_close_inactive (a : ActiveSource) (tr : Transaction ActiveSource)
    (conf : CompletionConfig) (heff : tr.effects = [.closeCompletion]) :
    (a.update tr conf).stateOf = SrcState.Inactive := by
  unfold ActiveSource.update
  rw [heff]
  simp [ActiveSource.stateOf]

/-- C7: the rejection handler of `startQuery` dispatches the close-completion
effect and reports the error to the host's exception log, and applying a
transaction carrying exactly that effect forces every per-source state of the
aggregate to `Inactive` — no partially-updated per-source state survives. -/
theorem c7_reject_closes_session (s : CompletionState) (tr : Transaction ActiveSource)
    (heff : tr.effects = [.closeCompletion]) :
    (∀ a ∈ (s.update tr).active, a.stateOf = SrcState.Inactive) ∧
      Sched.SchedulerAction.dispatchEffects [CMEffectG.closeCompletion] ∈
        Sched.startQueryRejectActions ∧
      Sched.SchedulerAction.logToHost ∈ Sched.startQueryRejectActions := by
  refine ⟨?_, by simp [Sched.startQueryRejectActions], by simp [Sched.startQueryRejectActions]⟩
  have h0 : ∀ a ∈ updActive0 s tr, a.stateOf = SrcState.Inactive := by
    intro a ha
    unfold updActive0 at ha
    rw [List.mem_map] at ha
    obtain ⟨src, _, rfl⟩ := ha
    exact update_close_inactive _ tr _ heff
  have h1 : ∀ a ∈ updActive s tr, a.stateOf = SrcState.Inactive := by
    intro a ha
    unfold updActive at ha
    simp only at ha
    split at ha
    · next hcond =>
      have hb := (Bool.and_eq_true _ _).mp hcond
      have heq := eq_of_zip_all _ _ (beq_iff_eq.mp hb.1) hb.2
      exact h0 a (heq ▸ ha)
    · exact h0 a ha
  rw [update_active]
  intro a ha
  unfold updActive2 at ha
  simp only at ha
  split at ha
  · rw [List.mem_map] at ha
    obtain ⟨b, hb, rfl⟩ := ha
    split
    · simp [ActiveSource.stateOf]
    · exact h1 b hb
  · exact h1 a ha

/-- C7 witness: a state with a result source and a pending source, closed by
the rejection handler's transaction. -/
theorem c7_reject_closes_session_witness :
    (((CompletionState.mk [.base 1 .Pending false, c4srcEx] "w"
        none).update
        { startState := { esEx with langSources := [1, 0] }
          changes := []
          selection := false
          newCursor := 0
          effects := [.closeCompletion]
          userEvent := none
          annotationPicked := none
          time := 0 }).active.all
      (fun a => a.stateOf == SrcState.Inactive)) = true := by
  rw [List.all_eq_true]
  intro a ha
  exact beq_iff_eq.mpr ((c7_reject_closes_session _ _ rfl).1 a ha)

/-! ## C10: `validFor` regexps must match the whole span -/

/-- Anchoring a regexp at both ends via `ensureAnchor` yields anchored flags
and an unchanged core pattern. -/
theorem ensureAnchor_true_flags (e : JSRegExp) :
    (ensureAnchor e true).caret = true ∧ (ensureAnchor e true).dollar = true ∧
      (ensureAnchor e true).core = e.core := by
  cases e with
  | mk c d r => cases c <;> cases d <;> simp [ensureAnchor]

/-- Testing a regexp that is anchored at both ends is exactly a full match of
its core against the text. -/
theorem test_anchored (e : JSRegExp) (hc : e.caret = true) (hd : e.dollar = true)
    (text : List Char) : e.test text = e.core.rmatch text := by
  unfold JSRegExp.test
  rw [hc, hd]
  cases hrm : e.core.rmatch text with
  | true =>
    apply List.any_eq_true.mpr
    refine ⟨0, by simp, ?_⟩
    simp only [decide_True, Bool.not_true, Bool.false_or, Bool.true_and]
    apply List.any_eq_true.mpr
    refine ⟨text.length, by simp, ?_⟩
    simpa using hrm
  | false =>
    apply List.any_eq_false.mpr
    intro i _
    intro hcontra
    rw [Bool.and_eq_true] at hcontra
    obtain ⟨hi0, hinner⟩ := hcontra
    have hi : i = 0 := by simpa using hi0
    subst hi
    obtain ⟨j, _, hj⟩ := List.any_eq_true.mp hinner
    simp only [Bool.and_eq_true] at hj
    obtain ⟨⟨hle, hlen⟩, hmatch⟩ := hj
    have hlen1 : j = text.length := by simpa using hlen
    subst hlen1
    simp only [List.drop_zero, Nat.sub_zero, List.take_length] at hmatch
    rw [hrm] at hmatch
    exact Bool.false_ne_true hmatch

/-- C10: when a result's continuation predicate is a regular expression,
`checkValid` holds exactly when the regexp — anchored at both ends by
`ensureAnchor` — matches the entire text between the (mapped) `from` and `to`
positions; in particular a regexp that matches only a proper substring of the
span does not keep the result, and a result without `validFor` is never kept by
this check (the update rule then falls through to the result's `update`
function or degrades). -/
theorem c10_checkValid_full_match (re : JSRegExp) (state : EditorState) (f t : Nat) :
    checkValid (some (.re re)) state f t = re.core.rmatch (sliceDoc state.doc f t) ∧
      checkValid none state f t = false := by
  constructor
  · have h := ensureAnchor_true_flags re
    unfold checkValid
    simp only
    rw [test_anchored _ h.1 h.2.1, h.2.2]
  · rfl

/-! ## C8: aborting and backlog growth of in-flight queries -/

/-- A concrete in-flight query with an empty backlog. -/
def c8qEx : Sched.RunningQuery :=
  { active := .base 5 .Pending (-1), time := 0, updates := [], done := none }

/-- A concrete transaction that changes neither document nor selection and
carries no completion effects. -/
def c8trEx : Sched.Tr :=
  { startState := esEx
    changes := []
    selection := false
    newCursor := 0
    effects := []
    userEvent := none
    annotationPicked := none
    time := 0 }

/-- A concrete view update carrying `c8trEx`, with the completion field
unchanged. -/
def c8uEx : Sched.ViewUpdate :=
  { transactions := [c8trEx], fieldUnchanged := true }

/-- C8 counterexample: a view update that changes neither selection nor
document and leaves the completion field unchanged is skipped by
`completionPlugin.update` — the query is neither aborted (it survives) nor has
the update's transactions appended to its backlog, although the update is not a
hard reset and the backlog bound is not exceeded. -/
theorem c8_counterexample :
    c8uEx.transactions.length = 1 ∧
      Sched.doesReset c8uEx.transactions confEx = false ∧
      c8qEx.updates.length + c8uEx.transactions.length ≤ Sched.MaxUpdateCount ∧
      (Sched.pluginUpdateRunning [c8qEx] c8uEx confEx 5000).map
          (fun q => q.updates.length) = [0] := by
  decide

/-- C8 (amended): an in-flight query is aborted by a view update exactly when
the update is a hard reset (a selection jump, or a selection/document change
that is not a simple typing or backspacing interaction) or the backlog
including the incoming transactions exceeds 50 while the query is older than
1000 ms; otherwise the per-query step appends the transactions to the backlog —
except that an update which changes neither selection nor document and leaves
the completion state unchanged is skipped entirely, leaving every query record
untouched. -/
theorem c8_amended (running : List Sched.RunningQuery) (q : Sched.RunningQuery)
    (u : Sched.ViewUpdate) (conf : CompletionConfig) (now : Int) :
    (Sched.queryStep q u.transactions conf now = none ↔
      Sched.doesReset u.transactions conf = true ∨
        (q.updates.length + u.transactions.length > Sched.MaxUpdateCount ∧
          now - q.time > Sched.MinAbortTime)) ∧
    (Sched.queryStep q u.transactions conf now = none ∨
      Sched.queryStep q u.transactions conf now =
        some { q with updates := q.updates ++ u.transactions }) ∧
    (u.selectionSet = false → u.vDocChanged = false → u.fieldUnchanged = true →
      Sched.pluginUpdateRunning running u conf now = running) ∧
    ((u.selectionSet = true ∨ u.vDocChanged = true ∨ u.fieldUnchanged = false) →
      Sched.pluginUpdateRunning running u conf now =
        running.filterMap fun q1 => Sched.queryStep q1 u.transactions conf now) := by
  refine ⟨?_, ?_, ?_, ?_⟩
  · unfold Sched.queryStep
    split
    · next h =>
      simp only [Bool.or_eq_true, Bool.and_eq_true, decide_eq_true_eq] at h
      exact iff_of_true rfl h
    · next h =>
      simp only [Bool.or_eq_true, Bool.and_eq_true, decide_eq_true_eq] at h
      exact iff_of_false (by simp) h
  · unfold Sched.queryStep
    split
    · exact Or.inl rfl
    · exact Or.inr rfl
  · intro h1 h2 h3
    unfold Sched.pluginUpdateRunning
    simp [h1, h2, h3]
  · intro h
    unfold Sched.pluginUpdateRunning
    rcases h with h | h | h <;> simp [h]

/-- C8 witness: the amended characterization applied at concrete updates — a
no-change update leaves the query untouched, and a relevant update appends its
transaction to the backlog. -/
theorem c8_amended_witness :
    Sched.pluginUpdateRunning [c8qEx] c8uEx confEx 5000 = [c8qEx] ∧
      Sched.pluginUpdateRunning [c8qEx]
          { transactions := [c8trEx], fieldUnchanged := false } confEx 0 =
        [{ c8qEx with updates := [c8trEx] }] := by
  constructor
  · exact (c8_amended [c8qEx] c8qEx c8uEx confEx 5000).2.2.1 rfl rfl rfl
  · rw [(c8_amended [c8qEx] c8qEx { transactions := [c8trEx], fieldUnchanged := false }
      confEx 0).2.2.2 (Or.inr (Or.inr rfl))]
    rfl

/-! ## C6: deduplication of adjacent equivalent candidates -/

/-- The tracked previous completion after a dedup step is always the option
just processed. -/
theorem dedupStep_snd (acc : List CMOption × Option Completion) (opt : CMOption) :
    (dedupStep acc opt).2 = some opt.completion := by
  unfold dedupStep
  rcases acc with ⟨res, _ | prev⟩
  · rfl
  · dsimp only
    split
    · rfl
    · split <;> rfl

/-- A dedup step on an empty previous-completion state pushes the option. -/
theorem dedupStep_none (res : List CMOption) (opt : CMOption) :
    dedupStep (res, none) opt = (res ++ [opt], some opt.completion) := rfl

/-- A dedup step pushes the option when the push condition holds. -/
theorem dedupStep_push (res : List CMOption) (prev : Completion) (opt : CMOption)
    (h : pushCond prev opt.completion = true) :
    dedupStep (res, some prev) opt = (res ++ [opt], some opt.completion) := by
  unfold dedupStep
  simp [h]

/-- A dedup step replaces the last kept option by a higher-quality duplicate. -/
theorem dedupStep_replace (res : List CMOption) (prev : Completion) (opt : CMOption)
    (h : pushCond prev opt.completion = false) (hsc : score opt.completion > score prev) :
    dedupStep (res, some prev) opt = (res.dropLast ++ [opt], some opt.completion) := by
  unfold dedupStep
  simp [h, hsc]

/-- A dedup step drops a duplicate of no higher quality. -/
theorem dedupStep_skip (res : List CMOption) (prev : Completion) (opt : CMOption)
    (h : pushCond prev opt.completion = false) (hsc : ¬ score opt.completion > score prev) :
    dedupStep (res, some prev) opt = (res, some opt.completion) := by
  unfold dedupStep
  simp [h, hsc]

/-- After folding a non-empty list, the tracked previous completion is the last
element's. -/
theorem dedup_fold_snd : ∀ (l : List CMOption) (acc : List CMOption × Option Completion),
    l ≠ [] → (l.foldl dedupStep acc).2 = l.getLast?.map (·.completion) := by
  intro l
  induction l with
  | nil => intro acc h; exact absurd rfl h
  | cons x xs ih =>
    intro acc _
    rw [List.foldl_cons]
    cases xs with
    | nil => simp [dedupStep_snd]
    | cons y ys =>
      rw [ih _ (by simp), List.getLast?_cons_cons]

/-- The kept options of a dedup fold form a sublist of the accumulated options
followed by the remaining input. -/
theorem dedup_fold_sublist :
    ∀ (l : List CMOption) (res : List CMOption) (pr : Option Completion),
      List.Sublist (l.foldl dedupStep (res, pr)).1 (res ++ l) := by
  intro l
  induction l with
  | nil => intro res pr; simp
  | cons x xs ih =>
    intro res pr
    rw [List.foldl_cons]
    have hpush : List.Sublist ((xs.foldl dedupStep (res ++ [x], some x.completion)).1)
        (res ++ x :: xs) := by
      have h := ih (res ++ [x]) (some x.completion)
      rwa [List.append_assoc, List.singleton_append] at h
    rcases hpr : pr with _ | prev
    · rw [dedupStep_none]
      exact hpush
    · by_cases hc : pushCond prev x.completion = true
      · rw [dedupStep_push _ _ _ hc]
        exact hpush
      · rw [Bool.not_eq_true] at hc
        by_cases hsc : score x.completion > score prev
        · rw [dedupStep_replace _ _ _ hc hsc]
          have h := ih (res.dropLast ++ [x]) (some x.completion)
          rw [List.append_assoc, List.singleton_append] at h
          exact h.trans ((List.dropLast_sublist res).append (List.Sublist.refl _))
        · rw [dedupStep_skip _ _ _ hc hsc]
          exact (ih res _).trans
            ((List.Sublist.refl res).append (List.sublist_cons_self x xs))

/-- Once an accumulated option is no longer the last one, the dedup fold never
changes it: the prefix short of the last accumulated element is stable. -/
theorem dedup_fold_take :
    ∀ (l : List CMOption) (res : List CMOption) (pr : Option Completion) (k : Nat),
      k + 1 ≤ res.length → (l.foldl dedupStep (res, pr)).1.take k = res.take k := by
  intro l
  induction l with
  | nil => intro res pr k hk; rfl
  | cons x xs ih =>
    intro res pr k hk
    rw [List.foldl_cons]
    have hlen : k ≤ res.length := Nat.le_of_succ_le hk
    have hpush : (xs.foldl dedupStep (res ++ [x], some x.completion)).1.take k = res.take k := by
      rw [ih (res ++ [x]) _ k (by simp; omega)]
      exact List.take_append_of_le_length hlen
    rcases pr with _ | prev
    · rw [dedupStep_none]; exact hpush
    · by_cases hc : pushCond prev x.completion = true
      · rw [dedupStep_push _ _ _ hc]; exact hpush
      · rw [Bool.not_eq_true] at hc
        by_cases hsc : score x.completion > score prev
        · rw [dedupStep_replace _ _ _ hc hsc]
          have hdl : k ≤ res.dropLast.length := by
            rw [List.length_dropLast]; omega
          rw [ih (res.dropLast ++ [x]) _ k (by simp [List.length_dropLast]; omega)]
          rw [List.take_append_of_le_length hdl, List.dropLast_eq_take, List.take_take]
          congr 1
          omega
        · rw [dedupStep_skip _ _ _ hc hsc]
          exact ih res _ k hk

/-- A candidate with a type tag only (quality 1). -/
def c6a1 : Completion := { label := "x", ctype := some "t" }

/-- A duplicate candidate with info only (quality 5). -/
def c6a2 : Completion := { label := "x", info := some (.text "i") }

/-- A duplicate candidate with info and the type tag (quality 6). -/
def c6a3 : Completion := { label := "x", info := some (.text "i"), ctype := some "t" }

/-- A result delivering the three duplicates in order. -/
def c6res : CompletionResult := { rfrom := 0, rto := some 0, options := [c6a1, c6a2, c6a3] }

/-- An active list holding only that result. -/
def c6active : List ActiveSource := [.result 3 false 0 c6res 0 0]

/-- C6 counterexample: the three candidates are adjacent after sorting; the
pair `c6a1`, `c6a2` shares label, detail, replacement action and boost with
non-conflicting types, yet *neither* of the two is kept — the third duplicate
replaces the survivor — so "exactly one of the two is kept" fails for that
adjacent pair. -/
theorem c6_counterexample :
    (sortedOptionList c6active esEx).map (fun o => o.completion) = [c6a1, c6a2, c6a3] ∧
      pushCond c6a1 c6a2 = false ∧
      pushCond c6a2 c6a3 = false ∧
      (sortOptions c6active esEx).map (fun o => o.completion) = [c6a3] := by
  decide

/-- C6 (amended): when exactly two adjacent candidates in the sorted list share
label, detail, replacement action and boost with non-conflicting types — their
neighbours not also duplicating them, and neither value occurring elsewhere —
exactly one of the two is kept: the second when its quality (`score`, in which
a custom apply action outweighs info, which outweighs a type tag) is strictly
higher, and the first otherwise. -/
theorem c6_amended (p s : List CMOption) (o1 o2 : CMOption)
    (hdup : pushCond o1.completion o2.completion = false)
    (hp : ∀ lp ∈ p.getLast?, pushCond lp.completion o1.completion = true)
    (hs : ∀ h0 ∈ s.head?, pushCond o2.completion h0.completion = true)
    (hne : o1 ≠ o2)
    (ho1p : o1 ∉ p) (ho1s : o1 ∉ s) (ho2p : o2 ∉ p) (ho2s : o2 ∉ s) :
    (if score o2.completion > score o1.completion then o2 else o1) ∈
        dedup (p ++ o1 :: o2 :: s) ∧
      (if score o2.completion > score o1.completion then o1 else o2) ∉
        dedup (p ++ o1 :: o2 :: s) := by
  unfold dedup
  rw [List.foldl_append]
  rcases hA : p.foldl dedupStep ([], none) with ⟨R1, pr⟩
  have hR1p : List.Sublist R1 p := by
    have h := dedup_fold_sublist p [] none
    rw [hA] at h
    simpa using h
  have hstep1 : dedupStep (R1, pr) o1 = (R1 ++ [o1], some o1.completion) := by
    cases hls : p.getLast? with
    | none =>
      have hpnil : p = [] := List.getLast?_eq_none_iff.mp hls
      subst hpnil
      simp only [List.foldl_nil, Prod.mk.injEq] at hA
      rw [← hA.1, ← hA.2]
      rfl
    | some lp =>
      have hpne : p ≠ [] := by intro h; subst h; simp at hls
      have h2 := dedup_fold_snd p ([], none) hpne
      rw [hA, hls] at h2
      simp only [Option.map_some] at h2
      rw [h2]
      exact dedupStep_push _ _ _ (hp lp (by simp [hls, Option.mem_def]))
  have hmem : ∀ K : CMOption,
      K ∈ (s.foldl dedupStep (R1 ++ [K], some o2.completion)).1 := by
    intro K
    cases s with
    | nil => simp
    | cons h0 s1 =>
      rw [List.foldl_cons, dedupStep_push _ _ _ (hs h0 rfl)]
      have ht := dedup_fold_take s1 (R1 ++ [K] ++ [h0]) (some h0.completion)
        (R1.length + 1) (by simp)
      have htk : (R1 ++ [K] ++ [h0]).take (R1.length + 1) = R1 ++ [K] := by
        rw [List.take_append_of_le_length (by simp)]
        simp
      have hK : K ∈ (s1.foldl dedupStep
          (R1 ++ [K] ++ [h0], some h0.completion)).1.take (R1.length + 1) := by
        rw [ht, htk]
        simp
      exact (List.take_sublist _ _).mem hK
  have hnot : ∀ K D : CMOption, D ≠ K → D ∉ p → D ∉ s →
      D ∉ (s.foldl dedupStep (R1 ++ [K], some o2.completion)).1 := by
    intro K D hDK hDp hDs hmemD
    have hsub := dedup_fold_sublist s (R1 ++ [K]) (some o2.completion)
    have hin : D ∈ (R1 ++ [K]) ++ s := hsub.mem hmemD
    simp only [List.mem_append, List.mem_singleton] at hin
    rcases hin with (hD | hD) | hD
    · exact hDp (hR1p.mem hD)
    · exact hDK hD
    · exact hDs hD
  rw [List.foldl_cons, List.foldl_cons, hstep1]
  by_cases hq : score o2.completion > score o1.completion
  · rw [if_pos hq, if_pos hq, dedupStep_replace _ _ _ hdup hq, List.dropLast_concat]
    exact ⟨hmem o2, hnot o2 o1 hne ho1p ho1s⟩
  · rw [if_neg hq, if_neg hq, dedupStep_skip _ _ _ hdup hq]
    exact ⟨hmem o1, hnot o1 o2 (Ne.symm hne) ho2p ho2s⟩

/-- The first duplicate as a ranked option. -/
def c6o1 : CMOption := ⟨c6a1, 3, [], 0⟩

/-- The second duplicate as a ranked option. -/
def c6o2 : CMOption := ⟨c6a2, 3, [], 0⟩

/-- C6 witness: the amended theorem applied to an isolated duplicate pair —
the higher-quality second candidate is kept and the first is dropped. -/
theorem c6_amended_witness :
    (if score c6o2.completion > score c6o1.completion then c6o2 else c6o1) ∈
        dedup ([] ++ c6o1 :: c6o2 :: []) ∧
      (if score c6o2.completion > score c6o1.completion then c6o1 else c6o2) ∉
        dedup ([] ++ c6o1 :: c6o2 :: []) :=
  c6_amended [] [] c6o1 c6o2 (by decide) (by simp) (by simp) (by decide)
    (by simp) (by simp) (by simp) (by simp)

/-! ## Aggregate-state invariants (for C2, C3, C9) -/

/-- Remapping a dialog changes neither its options nor its disabled flag. -/
theorem mapThrough_dlg_fields (d : CompletionDialog) (changes : ChangeDesc) :
    (d.mapThrough changes).options = d.options ∧ (d.mapThrough changes).disabled = d.disabled :=
  ⟨rfl, rfl⟩

/-- Re-selecting changes neither the options, the disabled flag, the tooltip
position, the timestamp, nor the `above` flag of a dialog. -/
theorem setSelected_fields (d : CompletionDialog) (n : Int) (id : String) :
    (d.setSelected n id).options = d.options ∧ (d.setSelected n id).disabled = d.disabled ∧
      (d.setSelected n id).tooltipPos = d.tooltipPos ∧
      (d.setSelected n id).timestamp = d.timestamp ∧
      (d.setSelected n id).tooltipAbove = d.tooltipAbove := by
  unfold CompletionDialog.setSelected
  split <;> simp

/-- Field agreement between two dialogs up to selection. -/
def dlgLike (d1 d : CompletionDialog) : Prop :=
  d1.options = d.options ∧ d1.disabled = d.disabled ∧ d1.tooltipPos = d.tooltipPos ∧
    d1.timestamp = d.timestamp ∧ d1.tooltipAbove = d.tooltipAbove

/-- Every dialog the `build` step returns is either the previous dialog
disabled while a source is pending, or a fresh enabled dialog holding the
non-empty ranking result. -/
theorem build_inv (active : List ActiveSource) (state : EditorState) (id : String)
    (prev : Option CompletionDialog) (conf : CompletionConfig) (didSet : Bool) (now : Int) :
    ∀ d, CompletionDialog.build active state id prev conf didSet now = some d →
      (∃ d0, prev = some d0 ∧ d.options = d0.options ∧ d.disabled = true ∧
          active.any ActiveSource.isPending = true) ∨
        (d.options = sortOptions active state ∧ sortOptions active state ≠ [] ∧
          d.disabled = false) := by
  intro d hd
  unfold CompletionDialog.build at hd
  split at hd
  · next h =>
    rcases prev with _ | d0
    · simp at hd
    · simp only [Option.map_some'] at hd
      cases hd
      left
      simp only [Bool.and_eq_true] at h
      exact ⟨d0, rfl, rfl, rfl, h.2⟩
  · simp only at hd
    split at hd
    · next hempty =>
      split at hd
      · next hpending =>
        rcases prev with _ | d0
        · simp at hd
        · simp only [Option.map_some'] at hd
          cases hd
          exact Or.inl ⟨d0, rfl, rfl, rfl, hpending⟩
      · simp at hd
    · next hnonempty =>
      cases hd
      right
      refine ⟨rfl, ?_, rfl⟩
      intro hnil
      rw [hnil] at hnonempty
      simp at hnonempty

/-- Folding the selection effects over an absent dialog keeps it absent. -/
theorem selFold_none (id : String) :
    ∀ (effs : List (CMEffectG ActiveSource)),
      effs.foldl
        (fun o e =>
          match e with
          | .setSelected n => o.map (fun d => d.setSelected (n : Int) id)
          | _ => o)
        (none : Option CompletionDialog) = none := by
  intro effs
  induction effs with
  | nil => rfl
  | cons e effs ih =>
    rw [List.foldl_cons]
    cases e <;> simpa using ih

/-- Folding the selection effects over a dialog yields a dialog agreeing with
it on every field except possibly the selection. -/
theorem selFold_some (id : String) :
    ∀ (effs : List (CMEffectG ActiveSource)) (o : Option CompletionDialog)
      (d1 : CompletionDialog),
      effs.foldl
        (fun o e =>
          match e with
          | .setSelected n => o.map (fun d => d.setSelected (n : Int) id)
          | _ => o)
        o = some d1 →
      ∃ d, o = some d ∧ dlgLike d1 d := by
  intro effs
  induction effs with
  | nil =>
    intro o d1 h
    exact ⟨d1, h, rfl, rfl, rfl, rfl, rfl⟩
  | cons e effs ih =>
    intro o d1 h
    rw [List.foldl_cons] at h
    cases e with
    | setSelected n =>
      rcases o with _ | d0
      · dsimp only [Option.map_none'] at h
        rw [selFold_none] at h
        exact absurd h (by simp)
      · simp only [Option.map_some'] at h
        obtain ⟨d, hd, hlike⟩ := ih _ _ h
        cases hd
        have hf := setSelected_fields d0 (n : Int) id
        exact ⟨d0, rfl, hlike.1.trans hf.1, hlike.2.1.trans hf.2.1,
          hlike.2.2.1.trans hf.2.2.1, hlike.2.2.2.1.trans hf.2.2.2.1,
          hlike.2.2.2.2.trans hf.2.2.2.2⟩
    | startCompletion b => exact ih _ _ h
    | closeCompletion => exact ih _ _ h
    | setActive l => exact ih _ _ h

/-- Remapping the previous dialog keeps its options and disabled flag. -/
theorem updOpen1_shape (s : CompletionState) (tr : Transaction ActiveSource) :
    (updOpen1 s tr = none ∧ s.openDialog = none) ∨
      (∃ d0 d, s.openDialog = some d0 ∧ updOpen1 s tr = some d ∧
        d.options = d0.options ∧ d.disabled = d0.disabled) := by
  unfold updOpen1
  rcases hs : s.openDialog with _ | d0
  · left
    simp
  · right
    split
    · exact ⟨d0, d0.mapThrough tr.changes, rfl, rfl, rfl, rfl⟩
    · exact ⟨d0, d0, rfl, rfl, rfl, rfl⟩

/-- The dialog decision preserves non-emptiness of the option list. -/
theorem updOpen2_inv1 (s : CompletionState) (tr : Transaction ActiveSource)
    (h1 : ∀ d, s.openDialog = some d → d.options ≠ []) :
    ∀ d, updOpen2 s tr = some d → d.options ≠ [] := by
  have hopen1 : ∀ d1, updOpen1 s tr = some d1 → d1.options ≠ [] := by
    intro d1 hd1
    rcases updOpen1_shape s tr with ⟨hn, _⟩ | ⟨d0, d2, hs0, hu, hopt, _⟩
    · rw [hn] at hd1; simp at hd1
    · rw [hu] at hd1; cases hd1; rw [hopt]; exact h1 d0 hs0
  intro d hd
  unfold updOpen2 at hd
  simp only at hd
  split at hd
  · rcases build_inv _ _ _ _ _ _ _ d hd with ⟨d0, hprev, hopt, _, _⟩ | ⟨hopt, hne, _⟩
    · rw [hopt]; exact hopen1 d0 hprev
    · rw [hopt]; exact hne
  · split at hd
    · simp at hd
    · exact hopen1 d hd

/-- An updated dialog that is disabled implies a pending source in the
recomputed per-source list. -/
theorem updOpen2_inv2 (s : CompletionState) (tr : Transaction ActiveSource) :
    ∀ d, updOpen2 s tr = some d → d.disabled = true →
      (updActive s tr).any ActiveSource.isPending = true := by
  intro d hd hdis
  unfold updOpen2 at hd
  simp only at hd
  split at hd
  · rcases build_inv _ _ _ _ _ _ _ d hd with ⟨_, _, _, _, hpend⟩ | ⟨_, _, hfalse⟩
    · exact hpend
    · rw [hdis] at hfalse; cases hfalse
  · split at hd
    · simp at hd
    · next hcond =>
      rw [hd] at hcond
      simp only [hdis, Bool.true_and, Bool.and_eq_true, Bool.not_eq_true'] at hcond
      simpa using hcond

/-- Folding the selection effects preserves presence of the dialog. -/
theorem selFold_isSome (id : String) :
    ∀ (effs : List (CMEffectG ActiveSource)) (o : Option CompletionDialog),
      o.isSome = true →
      (effs.foldl
        (fun o e =>
          match e with
          | .setSelected n => o.map (fun d => d.setSelected (n : Int) id)
          | _ => o)
        o).isSome = true := by
  intro effs
  induction effs with
  | nil => intro o h; exact h
  | cons e effs ih =>
    intro o h
    rw [List.foldl_cons]
    cases e with
    | setSelected n =>
      apply ih
      rcases o with _ | d
      · simp at h
      · rfl
    | startCompletion b => exact ih o h
    | closeCompletion => exact ih o h
    | setActive l => exact ih o h

/-- When the updated state keeps a dialog, the deactivation step leaves the
per-source list alone. -/
theorem updActive2_of_some (s : CompletionState) (tr : Transaction ActiveSource)
    (h : (updOpen2 s tr).isSome = true) : updActive2 s tr = updActive s tr := by
  unfold updActive2
  simp only
  split
  · next hc =>
    rw [Bool.and_eq_true, Bool.and_eq_true] at hc
    have hn := hc.1.1
    rw [Option.isNone_iff_eq_none] at hn
    rw [hn] at h
    simp at h
  · rfl

/-- A disabled dialog in an updated state implies a pending source. -/
theorem update_inv2 (s : CompletionState) (tr : Transaction ActiveSource) :
    ∀ d, (s.update tr).openDialog = some d → d.disabled = true →
      ((s.update tr).active.any ActiveSource.isPending) = true := by
  intro d hd hdis
  rw [update_open] at hd
  unfold updOpen3 at hd
  obtain ⟨d0, h0, hlike⟩ := selFold_some s.id tr.effects _ d hd
  rw [update_active, updActive2_of_some s tr (by rw [h0]; rfl)]
  exact updOpen2_inv2 s tr d0 h0 (by rw [← hlike.2.1]; exact hdis)

/-- An updated state without a dialog and without pending sources holds no
materialized results. -/
theorem update_inv3 (s : CompletionState) (tr : Transaction ActiveSource) :
    (s.update tr).openDialog = none →
    ((s.update tr).active.all fun a => !a.isPending) = true →
    ((s.update tr).active.all fun a => !a.hasResult) = true := by
  intro hnone hall
  rw [update_open] at hnone
  unfold updOpen3 at hnone
  have h2 : updOpen2 s tr = none := by
    rcases ho : updOpen2 s tr with _ | d0
    · rfl
    · have := selFold_isSome s.id tr.effects (updOpen2 s tr) (by rw [ho]; rfl)
      rw [hnone] at this
      simp at this
  rw [update_active] at hall ⊢
  unfold updActive2 at hall ⊢
  simp only at hall ⊢
  split at hall
  · next hc =>
    rw [if_pos hc]
    rw [List.all_eq_true]
    intro a ha
    rw [List.mem_map] at ha
    obtain ⟨b, _, rfl⟩ := ha
    by_cases hb : b.hasResult = true
    · rw [if_pos hb]; rfl
    · rw [if_neg hb]
      rw [Bool.not_eq_true] at hb
      rw [hb]
      rfl
  · next hc =>
    rw [if_neg hc]
    have hres : (updActive s tr).any ActiveSource.hasResult = false := by
      by_contra habs
      rw [Bool.not_eq_false] at habs
      refine hc ?_
      rw [Bool.and_eq_true, Bool.and_eq_true]
      exact ⟨⟨by rw [h2]; rfl, hall⟩, habs⟩
    rw [List.any_eq_false] at hres
    rw [List.all_eq_true]
    intro a ha
    simpa using hres a ha

/-- The non-emptiness invariant of an open dialog is preserved by updates. -/
theorem update_inv1 (s : CompletionState) (tr : Transaction ActiveSource)
    (h1 : ∀ d, s.openDialog = some d → d.options ≠ []) :
    ∀ d, (s.update tr).openDialog = some d → d.options ≠ [] := by
  intro d hd
  rw [update_open] at hd
  unfold updOpen3 at hd
  obtain ⟨d0, h0, hlike⟩ := selFold_some s.id tr.effects _ d hd
  rw [hlike.1]
  exact updOpen2_inv1 s tr h1 d0 h0

/-- The dialog invariants of the aggregate state: an open dialog has a
non-empty option list; a disabled dialog coexists with a pending source; with
no dialog and nothing pending, no result is materialized. -/
def DInv (s : CompletionState) : Prop :=
  (∀ d, s.openDialog = some d → d.options ≠ []) ∧
    (∀ d, s.openDialog = some d → d.disabled = true →
      s.active.any ActiveSource.isPending = true) ∧
    (s.openDialog = none → (s.active.all fun a => !a.isPending) = true →
      (s.active.all fun a => !a.hasResult) = true)

/-- Every reachable aggregate state satisfies the dialog invariants. -/
theorem reachable_DInv (es : EditorState) (s : CompletionState) (h : Reachable es s) :
    DInv s := by
  induction h with
  | start es id =>
    exact ⟨by simp [CompletionState.start], by simp [CompletionState.start],
      by intro _ _; rfl⟩
  | step es s tr hr htr ih =>
    exact ⟨update_inv1 s tr ih.1, update_inv2 s tr, update_inv3 s tr⟩

/-- The number of open dialogs of an aggregate state (0 or 1 by
construction). -/
def openDialogCount (s : CompletionState) : Nat :=
  match s.openDialog with
  | some _ => 1
  | none => 0

/-- C2: for every sequence of transactions applied from the initial completion
state, at most one dialog is open, and an open dialog — disabled or not —
always holds a non-empty list of options. -/
theorem c2_dialog_invariant (es : EditorState) (s : CompletionState)
    (h : Reachable es s) :
    openDialogCount s ≤ 1 ∧ ∀ d, s.openDialog = some d → d.options ≠ [] :=
  ⟨by unfold openDialogCount; split <;> simp, (reachable_DInv es s h).1⟩

/-- C2 witness: the invariant instantiated at the initial state. -/
theorem c2_dialog_invariant_witness :
    openDialogCount (CompletionState.start "w2") ≤ 1 ∧
      ∀ d, (CompletionState.start "w2").openDialog = some d → d.options ≠ [] :=
  c2_dialog_invariant esEx (CompletionState.start "w2") (Reachable.start esEx "w2")

/-! ## Per-source lemmas for the no-op and sync arguments (C3, C9) -/

/-- A transaction with no changes, no selection, and no user event classifies
as `None`. -/
theorem getUpdateType_noop {σ : Type} (tr : Transaction σ) (conf : CompletionConfig)
    (hev : tr.userEvent = none) (hsel : tr.selection = false) (hch : tr.changes = []) :
    getUpdateType tr conf = 0 := by
  simp [getUpdateType, isUserEvent_none tr hev, hsel, Transaction.docChanged, hch]

/-- Mapping a per-source state through an empty change set is the identity. -/
theorem mapThrough_empty (a : ActiveSource) (conf : CompletionConfig) :
    a.mapThrough conf [] = a := by
  unfold ActiveSource.mapThrough
  cases a <;> simp

/-- The per-source state machine fixes every state under a no-op
transaction. -/
theorem update_noop (a : ActiveSource) (tr : Transaction ActiveSource)
    (conf : CompletionConfig) (hev : tr.userEvent = none) (hsel : tr.selection = false)
    (hch : tr.changes = []) (heff : tr.effects = []) :
    a.update tr conf = a := by
  unfold ActiveSource.update
  rw [getUpdateType_noop tr conf hev hsel hch, heff]
  simp only [List.foldl_nil]
  have h8 : hasFlag 0 UpdateType.Reset = false := rfl
  have h16 : hasFlag 0 UpdateType.ResetIfTouching = false := rfl
  have h4 : hasFlag 0 UpdateType.Activate = false := rfl
  have h3 : hasFlag 0 UpdateType.SimpleInteraction = false := rfl
  rw [h8, h16, h4]
  simp only [Bool.false_and, Bool.and_false, Bool.false_or, Bool.or_false, if_neg Bool.false_ne_true]
  unfold ActiveSource.updateFor
  cases a with
  | base src st e =>
    simp only [hch]
    exact mapThrough_empty _ _
  | result src e limit res f t =>
    simp only [h3, Bool.not_false, if_true, hch]
    exact mapThrough_empty _ _

/-- Re-mapping preserves a state's source identity. -/
theorem mapThrough_source (a : ActiveSource) (conf : CompletionConfig) (changes : ChangeDesc) :
    (a.mapThrough conf changes).source = a.source := by
  cases a with
  | base src st e => rfl
  | result src e limit res f t =>
    unfold ActiveSource.mapThrough
    dsimp only
    split
    · rfl
    · split <;> rfl

/-- Advancing preserves a state's source identity. -/
theorem updateFor_source (a : ActiveSource) (tr : Transaction ActiveSource) (ty : Nat) :
    (a.updateFor tr ty).source = a.source := by
  cases a with
  | base src st e =>
    exact mapThrough_source (ActiveSource.base src st e) tr.startState.conf tr.changes
  | result src e limit res f t =>
    unfold ActiveSource.updateFor
    dsimp only
    split
    · exact mapThrough_source _ _ _
    · split
      · rfl
      · split
        · rfl
        · split
          · rfl
          · split
            · split <;> rfl
            · rfl

/-- Applying a `setActiveEffect` payload preserves the source identity. -/
theorem setActiveFold_source :
    ∀ (l : List ActiveSource) (v : ActiveSource),
      (l.foldl (fun v a => if a.source == v.source then a else v) v).source = v.source := by
  intro l
  induction l with
  | nil => intro v; rfl
  | cons a as ih =>
    intro v
    rw [List.foldl_cons]
    by_cases hsrc : (a.source == v.source) = true
    · rw [if_pos hsrc, ih]
      exact beq_iff_eq.mp hsrc
    · rw [if_neg hsrc]
      exact ih v

/-- Processing the completion effects preserves a state's source identity. -/
theorem effectFold_source :
    ∀ (effs : List (CMEffectG ActiveSource)) (v : ActiveSource),
      (effs.foldl
        (fun v e =>
          match e with
          | .startCompletion b => ActiveSource.base v.source .Pending b
          | .closeCompletion => ActiveSource.base v.source .Inactive false
          | .setActive l => l.foldl (fun v a => if a.source == v.source then a else v) v
          | .setSelected _ => v)
        v).source = v.source := by
  intro effs
  induction effs with
  | nil => intro v; rfl
  | cons e effs ih =>
    intro v
    rw [List.foldl_cons]
    cases e with
    | startCompletion b => rw [ih]; rfl
    | closeCompletion => rw [ih]; rfl
    | setSelected n => exact ih v
    | setActive l =>
      rw [ih]
      exact setActiveFold_source l v

/-- The full per-source update preserves the source identity. -/
theorem update_source (a : ActiveSource) (tr : Transaction ActiveSource)
    (conf : CompletionConfig) : (a.update tr conf).source = a.source := by
  unfold ActiveSource.update
  rw [effectFold_source, updateFor_source]
  split <;> split <;> rfl

/-- The recomputed per-source list is always the freshly computed one (the
object-reuse shortcut returns an equal value). -/
theorem updActive_eq (s : CompletionState) (tr : Transaction ActiveSource) :
    updActive s tr = updActive0 s tr := by
  unfold updActive
  simp only
  split
  · next h =>
    rw [Bool.and_eq_true] at h
    exact (eq_of_zip_all _ _ (beq_iff_eq.mp h.1) h.2).symm
  · rfl

/-- Looking up a source in a list built per source finds that source's
entry. -/
theorem find?_map_source (h : SourceId → ActiveSource) (hsrc : ∀ x, (h x).source = x) :
    ∀ (srcs : List SourceId) (x : SourceId), x ∈ srcs →
      (srcs.map h).find? (fun a => a.source == x) = some (h x) := by
  intro srcs
  induction srcs with
  | nil => intro x hx; simp at hx
  | cons y ys ih =>
    intro x hx
    rw [List.map_cons, List.find?_cons]
    by_cases hxy : ((h y).source == x) = true
    · rw [hxy]
      have hyx : y = x := by rw [hsrc y] at hxy; exact beq_iff_eq.mp hxy
      rw [hyx]
    · rw [Bool.not_eq_true] at hxy
      rw [hxy]
      have hne : x ≠ y := by
        intro heq
        rw [heq, hsrc y] at hxy
        simp at hxy
      exact ih x (by rcases List.mem_cons.mp hx with h1 | h1; exact absurd h1 hne; exact h1)

/-- Membership in the zip of a list with its image. -/
theorem mem_zip_self_map {h : SourceId → ActiveSource} :
    ∀ (l : List SourceId) (p : SourceId × ActiveSource), p ∈ l.zip (l.map h) →
      p.2 = h p.1 ∧ p.1 ∈ l := by
  intro l
  induction l with
  | nil => intro p hp; simp at hp
  | cons x xs ih =>
    intro p hp
    rw [List.map_cons, List.zip_cons_cons, List.mem_cons] at hp
    rcases hp with hp | hp
    · rw [hp]
      exact ⟨rfl, List.mem_cons_self x xs⟩
    · obtain ⟨h1, h2⟩ := ih p hp
      exact ⟨h1, List.mem_cons_of_mem x h2⟩

/-- The per-source list of an updated completion state is computed per
configured source, preserving each source identity. -/
theorem update_active_map (s : CompletionState) (tr : Transaction ActiveSource) :
    ∃ h : SourceId → ActiveSource,
      (∀ x, (h x).source = x) ∧ (s.update tr).active = (sourcesOf tr.state).map h := by
  have hsrc0 : ∀ x : SourceId,
      ((match s.active.find? (fun (a : ActiveSource) => a.source == x) with
        | some v => v
        | none =>
          ActiveSource.base x
            (if s.active.any (fun a => a.stateOf != SrcState.Inactive) then .Pending
             else .Inactive)
            false).update tr tr.state.conf).source = x := by
    intro x
    rw [update_source]
    rcases hf : s.active.find? (fun (a : ActiveSource) => a.source == x) with _ | v
    · simp only
      rfl
    · simp only
      have := List.find?_some hf
      exact beq_iff_eq.mp this
  have hbase : updActive s tr = (sourcesOf tr.state).map fun src =>
      (match s.active.find? (fun (a : ActiveSource) => a.source == src) with
       | some v => v
       | none =>
         ActiveSource.base src
           (if s.active.any (fun a => a.stateOf != SrcState.Inactive) then .Pending
            else .Inactive)
           false).update tr tr.state.conf := by
    rw [updActive_eq]
    rfl
  rw [update_active]
  unfold updActive2
  simp only
  split
  · refine ⟨fun x =>
      (fun a : ActiveSource =>
        if a.hasResult then ActiveSource.base a.source .Inactive false else a)
        ((match s.active.find? (fun (a : ActiveSource) => a.source == x) with
          | some v => v
          | none =>
            ActiveSource.base x
              (if s.active.any (fun a => a.stateOf != SrcState.Inactive) then .Pending
               else .Inactive)
              false).update tr tr.state.conf), ?_, ?_⟩
    · intro x
      dsimp only
      by_cases hres : ((match s.active.find? (fun (a : ActiveSource) => a.source == x) with
          | some v => v
          | none =>
            ActiveSource.base x
              (if s.active.any (fun a => a.stateOf != SrcState.Inactive) then .Pending
               else .Inactive)
              false).update tr tr.state.conf).hasResult = true
      · rw [if_pos hres]
        exact hsrc0 x
      · rw [if_neg hres]
        exact hsrc0 x
    · rw [hbase, List.map_map]
      rfl
  · exact ⟨_, hsrc0, hbase⟩

/-- Every updated completion state is synchronized with its editor state. -/
theorem update_SyncedB (s : CompletionState) (tr : Transaction ActiveSource) :
    SyncedB tr.state (s.update tr) = true := by
  obtain ⟨h, hsrc, heq⟩ := update_active_map s tr
  unfold SyncedB
  rw [heq, Bool.and_eq_true]
  constructor
  · rw [beq_iff_eq, List.map_map]
    have : (ActiveSource.source ∘ h) = fun x => x := by
      funext x
      exact hsrc x
    rw [this]
    exact List.map_id' _
  · rw [List.all_eq_true]
    intro p hp
    obtain ⟨h2, hmem⟩ := mem_zip_self_map (sourcesOf tr.state) p hp
    rw [h2, find?_map_source h hsrc _ _ hmem]
    exact beq_self_eq_true _

/-- Mapping source lookups over a synchronized list reproduces the list
itself, provided the per-source function fixes every found entry. -/
theorem map_find_eq (acts : List ActiveSource) (F : SourceId → ActiveSource)
    (hF : ∀ src v, acts.find? (fun (a : ActiveSource) => a.source == src) = some v →
      F src = v) :
    ∀ (srcs : List SourceId) (acts1 : List ActiveSource),
      acts1.map ActiveSource.source = srcs →
      (∀ p ∈ srcs.zip acts1,
        acts.find? (fun (a : ActiveSource) => a.source == p.1) = some p.2) →
      srcs.map F = acts1 := by
  intro srcs
  induction srcs with
  | nil =>
    intro acts1 hmap _
    cases acts1
    · rfl
    · simp at hmap
  | cons x xs ih =>
    intro acts1 hmap hfind
    cases acts1 with
    | nil => simp at hmap
    | cons a as =>
      simp only [List.map_cons, List.cons.injEq] at hmap
      rw [List.map_cons]
      have hx : F x = a := by
        apply hF
        have := hfind (x, a) (by rw [List.zip_cons_cons]; exact List.mem_cons_self _ _)
        exact this
      rw [hx]
      rw [ih as hmap.2 (fun p hp => hfind p (by rw [List.zip_cons_cons]; exact List.mem_cons_of_mem _ hp))]

/-! ## C3: no-op transactions -/

/-- An editor state with one configured source. -/
def c3esEx : EditorState := { esEx with langSources := [0] }

/-- A no-op transaction departing from `c3esEx`. -/
def c3noopEx : Transaction ActiveSource :=
  { startState := c3esEx
    changes := []
    selection := false
    newCursor := 0
    effects := []
    userEvent := none
    annotationPicked := none
    time := 0 }

/-- C3 counterexample: at the freshly created aggregate state with one
configured source, a no-op transaction synthesizes the missing per-source
record, so the update does alter the aggregate state. -/
theorem c3_counterexample :
    IsNoop c3noopEx ∧
      (CompletionState.start "c").update c3noopEx ≠ CompletionState.start "c" := by
  constructor
  · exact ⟨rfl, rfl, rfl, rfl⟩
  · decide

/-- C3 (amended): a reachable aggregate state whose per-source list is
synchronized with the configured sources (which holds after every processed
transaction) is a fixed point of every no-op transaction: the per-source states
and the open dialog are unchanged, and the same state object is returned. -/
theorem c3_amended (es : EditorState) (s : CompletionState) (tr : Transaction ActiveSource)
    (hreach : Reachable es s) (hsync : SyncedB es s = true) (hstart : tr.startState = es)
    (hnoop : IsNoop tr) : s.update tr = s := by
  obtain ⟨hch, hsel, heff, hev⟩ := hnoop
  have hsources : sourcesOf tr.state = sourcesOf es := by
    unfold sourcesOf Transaction.state
    rw [hstart]
  unfold SyncedB at hsync
  rw [Bool.and_eq_true] at hsync
  have hmap : s.active.map ActiveSource.source = sourcesOf es := beq_iff_eq.mp hsync.1
  have hfind : ∀ p ∈ (sourcesOf es).zip s.active,
      s.active.find? (fun (a : ActiveSource) => a.source == p.1) = some p.2 := by
    intro p hp
    exact beq_iff_eq.mp ((List.all_eq_true.mp hsync.2) p hp)
  have hactive0 : updActive0 s tr = s.active := by
    unfold updActive0
    rw [hsources]
    refine map_find_eq s.active _ ?_ (sourcesOf es) s.active hmap hfind
    intro src v hv
    dsimp only
    rw [hv]
    exact update_noop v tr _ hev hsel hch heff
  have hactive : updActive s tr = s.active := by rw [updActive_eq, hactive0]
  have hopen1 : updOpen1 s tr = s.openDialog := by
    unfold updOpen1
    rw [show tr.docChanged = false from by unfold Transaction.docChanged; rw [hch]; rfl]
    simp
  have hinv := reachable_DInv es s hreach
  have htouch : (s.active.any fun a =>
      a.hasResult && touchesRange tr.changes a.rfrom a.rto) = false := by
    rw [hch, List.any_eq_false]
    intro a _
    simp [touchesRange]
  have hsame : sameResults s.active s.active = true := by
    unfold sameResults
    exact beq_self_eq_true _
  have hdid : updDidSet tr = false := by
    unfold updDidSet
    rw [heff]
    rfl
  have hopen2 : updOpen2 s tr = s.openDialog := by
    unfold updOpen2
    simp only
    rw [hactive, hopen1]
    split
    · next hcontra =>
      rw [hsel, htouch, hsame, hdid] at hcontra
      simp at hcontra
    · split
      · next hcontra =>
        rw [Bool.and_eq_true] at hcontra
        obtain ⟨hdis0, hnp⟩ := hcontra
        rcases ho : s.openDialog with _ | d
        · rw [ho] at hdis0
        · rw [ho] at hdis0
          dsimp only at hdis0
          rw [hinv.2.1 d ho hdis0] at hnp
          simp at hnp
      · rfl
  have hactive2 : updActive2 s tr = s.active := by
    unfold updActive2
    simp only
    rw [hactive, hopen2]
    split
    · next hc =>
      rw [Bool.and_eq_true, Bool.and_eq_true] at hc
      obtain ⟨⟨hnone, hall⟩, hany⟩ := hc
      rw [Option.isNone_iff_eq_none] at hnone
      have hnr := hinv.2.2 hnone hall
      rw [List.all_eq_true] at hnr
      rw [List.any_eq_true] at hany
      obtain ⟨a, ha, hres⟩ := hany
      have h2 := hnr a ha
      rw [hres] at h2
      exact absurd h2 (by decide)
    · rfl
  have hopen3 : updOpen3 s tr = s.openDialog := by
    unfold updOpen3
    rw [heff, List.foldl_nil, hopen2]
  unfold CompletionState.update
  rw [if_pos]
  rw [Bool.and_eq_true]
  exact ⟨by rw [hactive2]; exact beq_self_eq_true _,
    by rw [hopen3]; exact beq_self_eq_true _⟩

/-- A no-op transaction departing from the sourceless editor state. -/
def c3noop2Ex : Transaction ActiveSource :=
  { startState := esEx
    changes := []
    selection := false
    newCursor := 0
    effects := []
    userEvent := none
    annotationPicked := none
    time := 0 }

/-- C3 witness: the amended no-op fixpoint at a concrete synchronized state. -/
theorem c3_amended_witness :
    SyncedB esEx (CompletionState.start "n") = true ∧
      IsNoop c3noop2Ex ∧
      (CompletionState.start "n").update c3noop2Ex = CompletionState.start "n" :=
  ⟨rfl, ⟨rfl, rfl, rfl, rfl⟩,
    c3_amended esEx (CompletionState.start "n") c3noop2Ex (Reachable.start esEx "n") rfl rfl
      ⟨rfl, rfl, rfl, rfl⟩⟩

/-! ## C9: the set-selected effect as a pure frame effect -/

/-- The per-source state machine also fixes every state under a transaction
carrying only a `setSelectedEffect`: the per-source effect fold ignores it. -/
theorem update_sel_only (a : ActiveSource) (tr : Transaction ActiveSource)
    (conf : CompletionConfig) (n : Nat) (hev : tr.userEvent = none)
    (hsel : tr.selection = false) (hch : tr.changes = [])
    (heff : tr.effects = [.setSelected n]) :
    a.update tr conf = a := by
  unfold ActiveSource.update
  rw [getUpdateType_noop tr conf hev hsel hch, heff]
  simp only [List.foldl_cons, List.foldl_nil]
  have h8 : hasFlag 0 UpdateType.Reset = false := rfl
  have h16 : hasFlag 0 UpdateType.ResetIfTouching = false := rfl
  have h4 : hasFlag 0 UpdateType.Activate = false := rfl
  have h3 : hasFlag 0 UpdateType.SimpleInteraction = false := rfl
  rw [h8, h16, h4]
  simp only [Bool.false_and, Bool.and_false, Bool.false_or, Bool.or_false, if_neg Bool.false_ne_true]
  unfold ActiveSource.updateFor
  cases a with
  | base src st e =>
    simp only [hch]
    exact mapThrough_empty _ _
  | result src e limit res f t =>
    simp only [h3, Bool.not_false, if_true, hch]
    exact mapThrough_empty _ _

/-- C9: processing a transaction that carries only a "set selected index N"
effect on a reachable, synchronized state with an open dialog changes only the
dialog's selected index and the derived accessibility attributes — and is
ignored when N is already selected or not below the option count: the option
list, tooltip position and orientation, timestamp, disabled flag, session id
and every per-source state are unchanged, and no dialog rebuild occurs (the
resulting dialog is the previous one with at most `selected` and `attrs`
replaced). -/
theorem c9_set_selected_frame (es : EditorState) (s : CompletionState) (d : CompletionDialog)
    (n : Nat) (tr : Transaction ActiveSource)
    (hreach : Reachable es s) (hsync : SyncedB es s = true) (hstart : tr.startState = es)
    (hopen : s.openDialog = some d) (hch : tr.changes = []) (hsel : tr.selection = false)
    (hev : tr.userEvent = none) (heff : tr.effects = [.setSelected n]) :
    (s.update tr).active = s.active ∧
      (s.update tr).id = s.id ∧
      (s.update tr).openDialog = some (d.setSelected (n : Int) s.id) ∧
      (d.setSelected (n : Int) s.id).options = d.options ∧
      (d.setSelected (n : Int) s.id).tooltipPos = d.tooltipPos ∧
      (d.setSelected (n : Int) s.id).timestamp = d.timestamp ∧
      (d.setSelected (n : Int) s.id).disabled = d.disabled ∧
      (d.setSelected (n : Int) s.id).tooltipAbove = d.tooltipAbove ∧
      ((n : Int) = d.selected ∨ (d.options.length : Int) ≤ (n : Int) →
        d.setSelected (n : Int) s.id = d) ∧
      ((n : Int) ≠ d.selected → (n : Int) < (d.options.length : Int) →
        (d.setSelected (n : Int) s.id).selected = (n : Int) ∧
        (d.setSelected (n : Int) s.id).attrs = makeAttrs s.id (n : Int)) := by
  have hsources : sourcesOf tr.state = sourcesOf es := by
    unfold sourcesOf Transaction.state
    rw [hstart]
  unfold SyncedB at hsync
  rw [Bool.and_eq_true] at hsync
  have hmap : s.active.map ActiveSource.source = sourcesOf es := beq_iff_eq.mp hsync.1
  have hfind : ∀ p ∈ (sourcesOf es).zip s.active,
      s.active.find? (fun (a : ActiveSource) => a.source == p.1) = some p.2 := by
    intro p hp
    exact beq_iff_eq.mp ((List.all_eq_true.mp hsync.2) p hp)
  have hactive0 : updActive0 s tr = s.active := by
    unfold updActive0
    rw [hsources]
    refine map_find_eq s.active _ ?_ (sourcesOf es) s.active hmap hfind
    intro src v hv
    dsimp only
    rw [hv]
    exact update_sel_only v tr _ n hev hsel hch heff
  have hactive : updActive s tr = s.active := by rw [updActive_eq, hactive0]
  have hopen1 : updOpen1 s tr = s.openDialog := by
    unfold updOpen1
    rw [show tr.docChanged = false from by unfold Transaction.docChanged; rw [hch]; rfl]
    simp
  have hinv := reachable_DInv es s hreach
  have htouch : (s.active.any fun a =>
      a.hasResult && touchesRange tr.changes a.rfrom a.rto) = false := by
    rw [hch, List.any_eq_false]
    intro a _
    simp [touchesRange]
  have hsame : sameResults s.active s.active = true := by
    unfold sameResults
    exact beq_self_eq_true _
  have hdid : updDidSet tr = false := by
    unfold updDidSet
    rw [heff]
    rfl
  have hopen2 : updOpen2 s tr = s.openDialog := by
    unfold updOpen2
    simp only
    rw [hactive, hopen1]
    split
    · next hcontra =>
      rw [hsel, htouch, hsame, hdid] at hcontra
      simp at hcontra
    · split
      · next hcontra =>
        rw [Bool.and_eq_true] at hcontra
        obtain ⟨hdis0, hnp⟩ := hcontra
        rcases ho : s.openDialog with _ | d1
        · rw [ho] at hdis0
        · rw [ho] at hdis0
          dsimp only at hdis0
          rw [hinv.2.1 d1 ho hdis0] at hnp
          simp at hnp
      · rfl
  have hopen3 : updOpen3 s tr = some (d.setSelected (n : Int) s.id) := by
    unfold updOpen3
    rw [heff, List.foldl_cons, List.foldl_nil, hopen2, hopen]
    rfl
  have hactive2 : updActive2 s tr = s.active := by
    unfold updActive2
    simp only
    rw [hactive, hopen2, hopen]
    split
    · next hc => simp at hc
    · rfl
  refine ⟨by rw [update_active, hactive2], update_id s tr,
    by rw [update_open, hopen3],
    (setSelected_fields d (n : Int) s.id).1,
    (setSelected_fields d (n : Int) s.id).2.2.1,
    (setSelected_fields d (n : Int) s.id).2.2.2.1,
    (setSelected_fields d (n : Int) s.id).2.1,
    (setSelected_fields d (n : Int) s.id).2.2.2.2, ?_, ?_⟩
  · intro h
    unfold CompletionDialog.setSelected
    split
    · rfl
    · next hcond =>
      exfalso
      apply hcond
      rw [Bool.or_eq_true]
      rcases h with h | h
      · exact Or.inl (beq_iff_eq.mpr h)
      · exact Or.inr (decide_eq_true h)
  · intro hne hlt
    unfold CompletionDialog.setSelected
    split
    · next hcond =>
      rw [Bool.or_eq_true] at hcond
      rcases hcond with h1 | h2
      · exact absurd (beq_iff_eq.mp h1) hne
      · exact absurd (of_decide_eq_true h2) (not_le.mpr hlt)
    · exact ⟨rfl, rfl⟩

/-- A configuration that does not select on open, so a set-selected effect has
something to change. -/
def c9confEx : CompletionConfig := { confEx with selectOnOpen := false }

/-- A concrete editor state with one language source. -/
def c9esEx : EditorState :=
  { doc := [], cursor := 0, conf := c9confEx, langSources := [7] }

/-- A filter-disabled one-option result for source 7. -/
def c9resEx : CompletionResult :=
  { rfrom := 0, rto := some 0, options := [{ label := "a" }], filter := some false }

/-- A transaction delivering the result through a `setActiveEffect`. -/
def c9trEx : Transaction ActiveSource :=
  { startState := c9esEx
    changes := []
    selection := false
    newCursor := 0
    effects := [.setActive [.result 7 false 0 c9resEx 0 0]]
    userEvent := none
    annotationPicked := none
    time := 0 }

/-- The reachable state with an open dialog obtained by applying `c9trEx`. -/
def c9s1Ex : CompletionState := (CompletionState.start "w").update c9trEx

/-- The dialog open in `c9s1Ex` (no initial selection). -/
def c9dEx : CompletionDialog :=
  { options := [⟨{ label := "a" }, 7, [], 1000000000⟩]
    attrs := makeAttrs "w" (-1)
    tooltipPos := 0
    tooltipAbove := false
    timestamp := 0
    selected := -1
    disabled := false }

/-- A transaction carrying only a set-selected effect. -/
def c9tr2Ex : Transaction ActiveSource :=
  { startState := c9trEx.state
    changes := []
    selection := false
    newCursor := 0
    effects := [.setSelected 0]
    userEvent := none
    annotationPicked := none
    time := 1 }

/-- C9 witness: the frame effect at a concrete reachable state with an open
dialog, moving the selection from none to index 0. -/
theorem c9_set_selected_frame_witness :
    (c9s1Ex.update c9tr2Ex).active = c9s1Ex.active ∧
      (c9s1Ex.update c9tr2Ex).id = c9s1Ex.id ∧
      (c9s1Ex.update c9tr2Ex).openDialog = some (c9dEx.setSelected (0 : Int) c9s1Ex.id) ∧
      (c9dEx.setSelected (0 : Int) c9s1Ex.id).options = c9dEx.options ∧
      (c9dEx.setSelected (0 : Int) c9s1Ex.id).tooltipPos = c9dEx.tooltipPos ∧
      (c9dEx.setSelected (0 : Int) c9s1Ex.id).timestamp = c9dEx.timestamp ∧
      (c9dEx.setSelected (0 : Int) c9s1Ex.id).disabled = c9dEx.disabled ∧
      (c9dEx.setSelected (0 : Int) c9s1Ex.id).tooltipAbove = c9dEx.tooltipAbove ∧
      ((0 : Int) = c9dEx.selected ∨ (c9dEx.options.length : Int) ≤ (0 : Int) →
        c9dEx.setSelected (0 : Int) c9s1Ex.id = c9dEx) ∧
      ((0 : Int) ≠ c9dEx.selected → (0 : Int) < (c9dEx.options.length : Int) →
        (c9dEx.setSelected (0 : Int) c9s1Ex.id).selected = (0 : Int) ∧
        (c9dEx.setSelected (0 : Int) c9s1Ex.id).attrs = makeAttrs c9s1Ex.id (0 : Int)) :=
  c9_set_selected_frame c9trEx.state c9s1Ex c9dEx 0 c9tr2Ex
    (Reachable.step c9esEx (CompletionState.start "w") c9trEx (Reachable.start c9esEx "w") rfl)
    (by decide) rfl (by decide) rfl rfl rfl rfl

/-! ## C5: section placement in the ranking -/

/-- A sectioned candidate served by a filter-disabled source. -/
def c5secCmpl : Completion := { label := "s", csection := some (.str "sec") }

/-- An unsectioned candidate served by a filtering source. -/
def c5plainCmpl : Completion := { label := "p" }

/-- An editor state with two language sources. -/
def c5esEx : EditorState := { esEx with langSources := [1, 2] }

/-- A filter-disabled result carrying the sectioned candidate. -/
def c5secRes : CompletionResult :=
  { rfrom := 0, rto := some 0, options := [c5secCmpl], filter := some false }

/-- A filtering result carrying the unsectioned candidate. -/
def c5plainRes : CompletionResult := { rfrom := 0, rto := some 0, options := [c5plainCmpl] }

/-- Two result states: source 1 with the filter-disabled sectioned candidate,
source 2 with the filtered unsectioned candidate. -/
def c5active : List ActiveSource :=
  [.result 1 false 0 c5secRes 0 0, .result 2 false 0 c5plainRes 0 0]

/-- C5 counterexample: a candidate from a filter-disabled source keeps its
synthetic score near 1e9 even after the section offset is folded in, so the
sectioned candidate precedes the unsectioned one — options without a section do
not in general precede every sectioned option when a filter-disabled source is
involved. -/
theorem c5_counterexample :
    sortOptions c5active c5esEx =
      [⟨c5secCmpl, 1, [], 999900000⟩, ⟨c5plainCmpl, 2, [], 0⟩] ∧
      optSectionName ⟨c5secCmpl, 1, [], 999900000⟩ = some "sec" ∧
      optSectionName ⟨c5plainCmpl, 2, [], 0⟩ = none := by
  refine ⟨by decide, rfl, rfl⟩

/-- Members of a stable insertion come from the inserted element or the list. -/
theorem mem_insSorted {α : Type} (le : α → α → Bool) (x : α) :
    ∀ (l : List α) (z : α), z ∈ insSorted le x l → z = x ∨ z ∈ l := by
  intro l
  induction l with
  | nil =>
    intro z hz
    unfold insSorted at hz
    exact Or.inl (List.mem_singleton.mp hz)
  | cons y ys ih =>
    intro z hz
    unfold insSorted at hz
    by_cases h : le y x = true
    · rw [if_pos h] at hz
      rcases List.mem_cons.mp hz with hzy | hzr
      · exact Or.inr (by rw [hzy]; exact List.mem_cons_self y ys)
      · rcases ih z hzr with h1 | h1
        · exact Or.inl h1
        · exact Or.inr (List.mem_cons_of_mem y h1)
    · rw [if_neg h] at hz
      rcases List.mem_cons.mp hz with hzx | hzr
      · exact Or.inl hzx
      · exact Or.inr hzr

/-- The inserted element and every list member belong to a stable insertion. -/
theorem insSorted_mem {α : Type} (le : α → α → Bool) (x : α) :
    ∀ (l : List α) (z : α), z = x ∨ z ∈ l → z ∈ insSorted le x l := by
  intro l
  induction l with
  | nil =>
    intro z hz
    unfold insSorted
    rcases hz with h | h
    · exact List.mem_singleton.mpr h
    · exact absurd h (List.not_mem_nil z)
  | cons y ys ih =>
    intro z hz
    unfold insSorted
    by_cases h : le y x = true
    · rw [if_pos h]
      rcases hz with h1 | h1
      · exact List.mem_cons_of_mem y (ih z (Or.inl h1))
      · rcases List.mem_cons.mp h1 with h2 | h2
        · rw [h2]; exact List.mem_cons_self y _
        · exact List.mem_cons_of_mem y (ih z (Or.inr h2))
    · rw [if_neg h]
      rcases hz with h1 | h1
      · rw [h1]; exact List.mem_cons_self x _
      · exact List.mem_cons_of_mem x h1

/-- Stable insertion preserves sortedness under a total transitive Boolean
order. -/
theorem insSorted_pairwise {α : Type} (le : α → α → Bool)
    (htot : ∀ a b, le a b = true ∨ le b a = true)
    (htr : ∀ a b c, le a b = true → le b c = true → le a c = true) (x : α) :
    ∀ (l : List α), List.Pairwise (fun a b => le a b = true) l →
      List.Pairwise (fun a b => le a b = true) (insSorted le x l) := by
  intro l
  induction l with
  | nil =>
    intro _
    exact List.pairwise_singleton _ _
  | cons y ys ih =>
    intro hp
    rw [List.pairwise_cons] at hp
    obtain ⟨hy, hys⟩ := hp
    unfold insSorted
    by_cases h : le y x = true
    · rw [if_pos h, List.pairwise_cons]
      refine ⟨?_, ih hys⟩
      intro z hz
      rcases mem_insSorted le x ys z hz with hzx | hzy
      · rw [hzx]; exact h
      · exact hy z hzy
    · rw [if_neg h, List.pairwise_cons]
      have hxy : le x y = true := by
        rcases htot x y with h1 | h1
        · exact h1
        · exact absurd h1 h
      refine ⟨?_, List.pairwise_cons.mpr ⟨hy, hys⟩⟩
      intro z hz
      rcases List.mem_cons.mp hz with hzy | hzys
      · rw [hzy]; exact hxy
      · exact htr x y z hxy (hy z hzys)

/-- Membership in the insertion-sort fold. -/
theorem foldl_insSorted_mem {α : Type} (le : α → α → Bool) :
    ∀ (l acc : List α) (z : α),
      z ∈ l.foldl (fun acc x => insSorted le x acc) acc ↔ z ∈ acc ∨ z ∈ l := by
  intro l
  induction l with
  | nil => intro acc z; simp
  | cons x xs ih =>
    intro acc z
    rw [List.foldl_cons, ih]
    constructor
    · rintro (hz | hz)
      · rcases mem_insSorted le x acc z hz with h | h
        · exact Or.inr (by rw [h]; exact List.mem_cons_self x xs)
        · exact Or.inl h
      · exact Or.inr (List.mem_cons_of_mem x hz)
    · rintro (hz | hz)
      · exact Or.inl (insSorted_mem le x acc z (Or.inr hz))
      · rcases List.mem_cons.mp hz with h | h
        · exact Or.inl (insSorted_mem le x acc z (Or.inl h))
        · exact Or.inr h

/-- The insertion-sort fold keeps the accumulator sorted. -/
theorem foldl_insSorted_pairwise {α : Type} (le : α → α → Bool)
    (htot : ∀ a b, le a b = true ∨ le b a = true)
    (htr : ∀ a b c, le a b = true → le b c = true → le a c = true) :
    ∀ (l acc : List α), List.Pairwise (fun a b => le a b = true) acc →
      List.Pairwise (fun a b => le a b = true)
        (l.foldl (fun acc x => insSorted le x acc) acc) := by
  intro l
  induction l with
  | nil => intro acc hp; exact hp
  | cons x xs ih =>
    intro acc hp
    rw [List.foldl_cons]
    exact ih _ (insSorted_pairwise le htot htr x acc hp)

/-- The output of the sort model is sorted by the comparator, when the
comparator induces a total transitive order. -/
theorem stableSortBy_pairwise {α : Type} (cmp : α → α → Int)
    (htot : ∀ a b, cmp a b ≤ 0 ∨ cmp b a ≤ 0)
    (htr : ∀ a b c, cmp a b ≤ 0 → cmp b c ≤ 0 → cmp a c ≤ 0) (l : List α) :
    List.Pairwise (fun a b => cmp a b ≤ 0) (stableSortBy cmp l) := by
  have h := foldl_insSorted_pairwise (fun a b => decide (cmp a b ≤ 0))
    (fun a b => by
      rcases htot a b with h | h
      · exact Or.inl (decide_eq_true h)
      · exact Or.inr (decide_eq_true h))
    (fun a b c h1 h2 =>
      decide_eq_true (htr a b c (of_decide_eq_true h1) (of_decide_eq_true h2)))
    l [] List.Pairwise.nil
  exact h.imp fun hab => of_decide_eq_true hab

/-- The sort model permutes its input (as membership). -/
theorem mem_stableSortBy {α : Type} (cmp : α → α → Int) (l : List α) (z : α) :
    z ∈ stableSortBy cmp l ↔ z ∈ l := by
  unfold stableSortBy
  rw [foldl_insSorted_mem]
  simp

/-- The final option comparator orders by descending score, with the configured
tie breaker. -/
theorem optCmp_le_iff (conf : CompletionConfig) (a b : CMOption) :
    optCmp conf a b ≤ 0 ↔
      (b.score < a.score ∨
        (b.score = a.score ∧ conf.compareCompletions a.completion b.completion ≤ 0)) := by
  unfold optCmp
  by_cases h : b.score - a.score = 0
  · have hb : (b.score - a.score != 0) = false := by simp [h]
    rw [hb, if_neg Bool.false_ne_true]
    constructor
    · intro hc
      exact Or.inr ⟨by omega, hc⟩
    · rintro (hlt | ⟨_, hc⟩)
      · omega
      · exact hc
  · have hb : (b.score - a.score != 0) = true := bne_iff_ne.mpr h
    rw [hb, if_pos rfl]
    constructor
    · intro hc
      exact Or.inl (by omega)
    · rintro (hlt | ⟨heq, _⟩)
      · omega
      · omega

/-- Totality of the final option comparator. -/
theorem optCmp_total (conf : CompletionConfig)
    (hc : ∀ x y, conf.compareCompletions x y ≤ 0 ∨ conf.compareCompletions y x ≤ 0)
    (a b : CMOption) : optCmp conf a b ≤ 0 ∨ optCmp conf b a ≤ 0 := by
  rw [optCmp_le_iff, optCmp_le_iff]
  rcases lt_trichotomy a.score b.score with h | h | h
  · exact Or.inr (Or.inl h)
  · rcases hc a.completion b.completion with h1 | h1
    · exact Or.inl (Or.inr ⟨h.symm, h1⟩)
    · exact Or.inr (Or.inr ⟨h, h1⟩)
  · exact Or.inl (Or.inl h)

/-- Transitivity of the final option comparator. -/
theorem optCmp_trans (conf : CompletionConfig)
    (ht : ∀ x y z, conf.compareCompletions x y ≤ 0 → conf.compareCompletions y z ≤ 0 →
      conf.compareCompletions x z ≤ 0)
    (a b c : CMOption) (h1 : optCmp conf a b ≤ 0) (h2 : optCmp conf b c ≤ 0) :
    optCmp conf a c ≤ 0 := by
  rw [optCmp_le_iff] at h1 h2 ⊢
  rcases h1 with h1 | ⟨he1, hc1⟩
  · rcases h2 with h2 | ⟨he2, _⟩
    · exact Or.inl (by omega)
    · exact Or.inl (by omega)
  · rcases h2 with h2 | ⟨he2, hc2⟩
    · exact Or.inl (by omega)
    · exact Or.inr ⟨by omega, ht _ _ _ hc1 hc2⟩

/-- The clamped match score stays in the base band. -/
theorem clampScore_bound (x : Int) : -1000 ≤ clampScore x ∧ clampScore x ≤ 1000 := by
  unfold clampScore
  constructor
  · exact le_max_left _ _
  · exact max_le (by norm_num) (min_le_left _ _)

/-- Every score produced by the selected matcher is in the base band. -/
theorem matcherMatch_snd_bound (conf : CompletionConfig) (p l : List Char)
    (r : List Nat × Int) (h : matcherMatch conf p l = some r) :
    -1000 ≤ r.2 ∧ r.2 ≤ 1000 := by
  unfold matcherMatch at h
  split at h
  · unfold strictMatch at h
    cases p with
    | nil =>
      rw [Option.some_inj] at h
      rw [← h]
      norm_num
    | cons c cs =>
      rw [Option.map_eq_some'] at h
      obtain ⟨i, _, hf⟩ := h
      rw [← hf]
      exact clampScore_bound _
  · unfold fuzzyMatch at h
    cases p with
    | nil =>
      rw [Option.some_inj] at h
      rw [← h]
      norm_num
    | cons c cs =>
      rw [Option.map_eq_some'] at h
      obtain ⟨ps, _, hf⟩ := h
      rw [← hf]
      exact clampScore_bound _

/-- Invariant of the option-building accumulator: every pushed option's score
is in the base band, and every attached section name is registered. -/
def OptInv (acc : BuildAcc) : Prop :=
  (∀ o ∈ acc.options, -1099 ≤ o.score ∧ o.score ≤ 1099) ∧
  (∀ o ∈ acc.options, ∀ n, optSectionName o = some n → ∃ s ∈ acc.sections, s.name = n)

/-- `addOption` appends the option. -/
theorem addOption_options (acc : BuildAcc) (o : CMOption) :
    (addOption acc o).options = acc.options ++ [o] := by
  unfold addOption
  rcases hsec : o.completion.csection with _ | sec
  · rfl
  · dsimp only
    split <;> rfl

/-- `addOption` never drops a registered section. -/
theorem addOption_sections_mono (acc : BuildAcc) (o : CMOption) :
    ∀ s ∈ acc.sections, s ∈ (addOption acc o).sections := by
  unfold addOption
  rcases hsec : o.completion.csection with _ | sec
  · intro s hs; exact hs
  · dsimp only
    split
    · intro s hs; exact hs
    · intro s hs; exact List.mem_append_left _ hs

/-- After `addOption`, the pushed option's section name is registered. -/
theorem addOption_sections_has (acc : BuildAcc) (o : CMOption) (n : String)
    (hn : optSectionName o = some n) :
    ∃ s ∈ (addOption acc o).sections, s.name = n := by
  unfold optSectionName at hn
  rw [Option.map_eq_some'] at hn
  obtain ⟨sec, hsec, hname⟩ := hn
  unfold addOption
  rw [hsec]
  dsimp only
  split
  · next hany =>
    rw [List.any_eq_true] at hany
    obtain ⟨s, hs, hbeq⟩ := hany
    exact ⟨s, hs, by rw [beq_iff_eq.mp hbeq, hname]⟩
  · cases sec with
    | str n1 =>
      exact ⟨⟨n1, none⟩, List.mem_append_right _ (List.mem_singleton.mpr rfl), hname⟩
    | obj ob =>
      exact ⟨ob, List.mem_append_right _ (List.mem_singleton.mpr rfl), hname⟩

/-- `addOption` preserves the accumulator invariant for a banded option. -/
theorem addOption_inv (acc : BuildAcc) (o : CMOption)
    (hsc : -1099 ≤ o.score ∧ o.score ≤ 1099) (hinv : OptInv acc) :
    OptInv (addOption acc o) := by
  constructor
  · intro x hx
    rw [addOption_options] at hx
    rcases List.mem_append.mp hx with h | h
    · exact hinv.1 x h
    · rw [List.mem_singleton.mp h]; exact hsc
  · intro x hx n hn
    rw [addOption_options] at hx
    rcases List.mem_append.mp hx with h | h
    · obtain ⟨s, hs, hname⟩ := hinv.2 x h n hn
      exact ⟨s, addOption_sections_mono acc o s hs, hname⟩
    · rw [List.mem_singleton.mp h] at hn
      exact addOption_sections_has acc o n hn

/-- The filtering branch of the option-building pass preserves the accumulator
invariant for boost-bounded candidates. -/
theorem matchFold_inv (state : EditorState) (src : SourceId) (res : CompletionResult)
    (pattern : List Char) :
    ∀ (opts : List Completion) (acc : BuildAcc),
      (∀ opt ∈ opts, -99 ≤ opt.boost.getD 0 ∧ opt.boost.getD 0 ≤ 99) →
      OptInv acc →
      OptInv (opts.foldl
        (fun acc opt =>
          match matcherMatch state.conf pattern opt.label.toList with
          | none => acc
          | some (matched, mscore) =>
            let matched1 :=
              if !(truthyStr opt.displayLabel) then matched
              else
                match res.getMatch with
                | some gid => state.conf.getMatchImpl gid opt (some matched)
                | none => []
            let sc := mscore + opt.boost.getD 0
            let acc1 := addOption acc ⟨opt, src, matched1, sc⟩
            match opt.csection with
            | some (.obj ob) =>
              if ob.rank == some .dynamic then
                { acc1 with dynScore := dynUpdate acc1.dynScore ob.name sc }
              else acc1
            | _ => acc1)
        acc) := by
  intro opts
  induction opts with
  | nil => intro acc _ hinv; exact hinv
  | cons opt rest ih =>
    intro acc hb hinv
    rw [List.foldl_cons]
    refine ih _ (fun o ho => hb o (List.mem_cons_of_mem _ ho)) ?_
    have hbo := hb opt (List.mem_cons_self _ _)
    rcases hm : matcherMatch state.conf pattern opt.label.toList with _ | ⟨matched, mscore⟩
    · simp only [hm]
      exact hinv
    · have hms := matcherMatch_snd_bound state.conf pattern opt.label.toList _ hm
      dsimp only at hms
      have hsc : -1099 ≤ mscore + opt.boost.getD 0 ∧ mscore + opt.boost.getD 0 ≤ 1099 := by
        omega
      simp only [hm]
      rcases hsec : opt.csection with _ | sf
      · simp only [hsec]
        exact addOption_inv _ _ hsc hinv
      · cases sf with
        | str s1 =>
          simp only [hsec]
          exact addOption_inv _ _ hsc hinv
        | obj ob =>
          simp only [hsec]
          split
          · exact addOption_inv _ _ hsc hinv
          · exact addOption_inv _ _ hsc hinv

/-- The per-claim premise of the amended C5: every delivered result filters
(`filter` is not `false`) and every candidate's boost is in the documented
-99..99 band. -/
def FilteredActive (active : List ActiveSource) : Prop :=
  ∀ a ∈ active, ∀ src e lim res f t, a = ActiveSource.result src e lim res f t →
    res.filter ≠ some false ∧
      ∀ opt ∈ res.options, -99 ≤ opt.boost.getD 0 ∧ opt.boost.getD 0 ≤ 99

/-- One source's contribution preserves the accumulator invariant under the
amended premise. -/
theorem addSourceOptions_inv (state : EditorState) (acc : BuildAcc) (a : ActiveSource)
    (hfa : ∀ src e lim res f t, a = ActiveSource.result src e lim res f t →
      res.filter ≠ some false ∧
        ∀ opt ∈ res.options, -99 ≤ opt.boost.getD 0 ∧ opt.boost.getD 0 ≤ 99)
    (hinv : OptInv acc) : OptInv (addSourceOptions state acc a) := by
  cases a with
  | base src st e => exact hinv
  | result src e lim res f t =>
    obtain ⟨hfil, hboost⟩ := hfa src e lim res f t rfl
    unfold addSourceOptions
    dsimp only
    rw [if_neg (fun h => hfil (beq_iff_eq.mp h))]
    exact matchFold_inv state src res (sliceDoc state.doc f t) res.options acc hboost hinv

/-- The full option-building pass preserves the accumulator invariant. -/
theorem collectFold_inv (state : EditorState) :
    ∀ (active : List ActiveSource) (acc : BuildAcc),
      FilteredActive active → OptInv acc →
      OptInv (active.foldl (addSourceOptions state) acc) := by
  intro active
  induction active with
  | nil => intro acc _ hinv; exact hinv
  | cons a rest ih =>
    intro acc hfa hinv
    rw [List.foldl_cons]
    exact ih _ (fun x hx => hfa x (List.mem_cons_of_mem a hx))
      (addSourceOptions_inv state acc a (hfa a (List.mem_cons_self a rest)) hinv)

/-- The collected accumulator satisfies the invariant under the amended
premise. -/
theorem collectOptions_inv (state : EditorState) (active : List ActiveSource)
    (hfa : FilteredActive active) : OptInv (collectOptions state active) := by
  unfold collectOptions
  exact collectFold_inv state active ⟨[], [], []⟩ hfa
    ⟨fun o ho => absurd ho (List.not_mem_nil o),
     fun o ho => absurd ho (List.not_mem_nil o)⟩

/-- Looking a registered name up in the enumerated section map finds the first
entry carrying that name, with the offset of its position. -/
theorem secmap_lookup :
    ∀ (l : List CMSection) (k : Nat) (n : String), (∃ s ∈ l, s.name = n) →
      ∃ i s, k ≤ i ∧ l.get? (i - k) = some s ∧ s.name = n ∧
        ((l.enumFrom k).map
          (fun p => (p.2.name, -100000 * ((p.1 : Int) + 1)))).lookup n =
          some (-100000 * ((i : Int) + 1)) := by
  intro l
  induction l with
  | nil =>
    intro k n h
    obtain ⟨s, hs, _⟩ := h
    exact absurd hs (List.not_mem_nil s)
  | cons s0 rest ih =>
    intro k n h
    by_cases h0 : s0.name = n
    · refine ⟨k, s0, le_refl k, by rw [Nat.sub_self]; rfl, h0, ?_⟩
      have hb : (n == s0.name) = true := beq_iff_eq.mpr h0.symm
      simp only [List.enumFrom, List.map_cons, List.lookup, hb]
    · have hr : ∃ s ∈ rest, s.name = n := by
        obtain ⟨s, hs, hname⟩ := h
        rcases List.mem_cons.mp hs with h1 | h1
        · exact absurd (by rw [← h1]; exact hname) h0
        · exact ⟨s, h1, hname⟩
      obtain ⟨i, s, hki, hget, hname, hlook⟩ := ih (k + 1) n hr
      refine ⟨i, s, Nat.le_trans (Nat.le_succ k) hki, ?_, hname, ?_⟩
      · rw [show i - k = (i - (k + 1)) + 1 from by omega]
        exact hget
      · have hb : (n == s0.name) = false := by
          rw [beq_eq_false_iff_ne]
          exact fun he => h0 he.symm
        simp only [List.enumFrom, List.map_cons, List.lookup, hb]
        exact hlook

/-- A successful lookup in the enumerated section map comes from an entry at a
definite position, whose offset it returns. -/
theorem secmap_lookup_inv :
    ∀ (l : List CMSection) (k : Nat) (n : String) (v : Int),
      ((l.enumFrom k).map
        (fun p => (p.2.name, -100000 * ((p.1 : Int) + 1)))).lookup n = some v →
      ∃ i s, k ≤ i ∧ l.get? (i - k) = some s ∧ s.name = n ∧
        v = -100000 * ((i : Int) + 1) := by
  intro l
  induction l with
  | nil =>
    intro k n v h
    exact absurd h (by simp [List.enumFrom])
  | cons s0 rest ih =>
    intro k n v h
    simp only [List.enumFrom, List.map_cons, List.lookup] at h
    by_cases hb : (n == s0.name) = true
    · simp only [hb] at h
      rw [Option.some_inj] at h
      exact ⟨k, s0, le_refl k, by rw [Nat.sub_self]; rfl, (beq_iff_eq.mp hb).symm, h.symm⟩
    · rw [Bool.not_eq_true] at hb
      simp only [hb] at h
      obtain ⟨i, s, hki, hget, hname, hv⟩ := ih (k + 1) n v h
      refine ⟨i, s, Nat.le_trans (Nat.le_succ k) hki, ?_, hname, hv⟩
      rw [show i - k = (i - (k + 1)) + 1 from by omega]
      exact hget

/-- A registered section name has a lookup entry, at offset at most `-1e5`. -/
theorem sectionOrderOf_lookup (acc : BuildAcc) (n : String)
    (h : ∃ s ∈ acc.sections, s.name = n) :
    ∃ v, (sectionOrderOf acc).lookup n = some v ∧ v ≤ -100000 := by
  obtain ⟨s, hs, hname⟩ := h
  have hsort : s ∈ stableSortBy (sectionCmp acc.dynScore) acc.sections :=
    (mem_stableSortBy _ _ s).mpr hs
  obtain ⟨i, s1, _, _, _, hlook⟩ :=
    secmap_lookup (stableSortBy (sectionCmp acc.dynScore) acc.sections) 0 n ⟨s, hsort, hname⟩
  exact ⟨-100000 * ((i : Int) + 1), hlook, by omega⟩

/-- Distinct section names have distinct offsets in the section order. -/
theorem sectionOrderOf_inj (acc : BuildAcc) (n1 n2 : String) (v1 v2 : Int)
    (h1 : (sectionOrderOf acc).lookup n1 = some v1)
    (h2 : (sectionOrderOf acc).lookup n2 = some v2) (hv : v1 = v2) : n1 = n2 := by
  obtain ⟨i1, s1, _, hget1, hn1, hv1⟩ :=
    secmap_lookup_inv (stableSortBy (sectionCmp acc.dynScore) acc.sections) 0 n1 v1 h1
  obtain ⟨i2, s2, _, hget2, hn2, hv2⟩ :=
    secmap_lookup_inv (stableSortBy (sectionCmp acc.dynScore) acc.sections) 0 n2 v2 h2
  have hi : i1 = i2 := by omega
  rw [hi, hget2, Option.some_inj] at hget1
  rw [← hn1, ← hn2, hget1]

/-- The option list of the ranking step before the final sort (section offsets
folded in when any section is present). -/
def c5wo (active : List ActiveSource) (state : EditorState) : List CMOption :=
  let acc := collectOptions state active
  if acc.sections.isEmpty then acc.options
  else applySectionOffsets acc.options (sectionOrderOf acc)

/-- The pre-sort list of the ranking step is the offset list. -/
theorem sortedOptionList_eq (active : List ActiveSource) (state : EditorState) :
    sortedOptionList active state = stableSortBy (optCmp state.conf) (c5wo active state) :=
  rfl

/-- Score characterization of an offset option: an unsectioned option keeps its
base-band score; a sectioned option's score is its section offset (a registered
lookup entry, at most `-1e5`) plus a base-band amount. -/
def c5Chr (acc : BuildAcc) (o : CMOption) : Prop :=
  match optSectionName o with
  | none => -1099 ≤ o.score ∧ o.score ≤ 1099
  | some n => ∃ v, (sectionOrderOf acc).lookup n = some v ∧ v ≤ -100000 ∧
      -1099 + v ≤ o.score ∧ o.score ≤ 1099 + v

/-- Every option entering the final sort satisfies the score
characterization. -/
theorem c5wo_chr (active : List ActiveSource) (state : EditorState)
    (hfa : FilteredActive active) :
    ∀ o ∈ c5wo active state, c5Chr (collectOptions state active) o := by
  intro o ho
  have hinv : OptInv (collectOptions state active) := collectOptions_inv state active hfa
  unfold c5wo at ho
  have ho2 : o ∈ (if (collectOptions state active).sections.isEmpty then
      (collectOptions state active).options
    else applySectionOffsets (collectOptions state active).options
      (sectionOrderOf (collectOptions state active))) := ho
  clear ho
  split at ho2
  · next hemp =>
    unfold c5Chr
    rcases hn : optSectionName o with _ | n
    · exact hinv.1 o ho2
    · obtain ⟨s, hs, _⟩ := hinv.2 o ho2 n hn
      rw [List.isEmpty_iff] at hemp
      rw [hemp] at hs
      exact absurd hs (List.not_mem_nil s)
  · unfold applySectionOffsets at ho2
    rw [List.mem_map] at ho2
    obtain ⟨o0, ho0, heq⟩ := ho2
    have hb := hinv.1 o0 ho0
    rcases hn0 : optSectionName o0 with _ | n
    · rw [hn0] at heq
      dsimp only at heq
      unfold c5Chr
      rw [← heq, hn0]
      exact hb
    · obtain ⟨v, hlook, hvle⟩ :=
        sectionOrderOf_lookup (collectOptions state active) n (hinv.2 o0 ho0 n hn0)
      rw [hn0] at heq
      dsimp only at heq
      unfold c5Chr
      rw [← heq]
      have hsec : optSectionName { o0 with score := o0.score +
          ((sectionOrderOf (collectOptions state active)).lookup n).getD 0 } =
          optSectionName o0 := rfl
      rw [hsec, hn0]
      refine ⟨v, hlook, hvle, ?_, ?_⟩
      · show -1099 + v ≤ o0.score + ((sectionOrderOf (collectOptions state active)).lookup n).getD 0
        rw [hlook]
        dsimp only [Option.getD]
        omega
      · show o0.score + ((sectionOrderOf (collectOptions state active)).lookup n).getD 0 ≤ 1099 + v
        rw [hlook]
        dsimp only [Option.getD]
        omega

/-- The section-placement order the amended C5 asserts of the ranked list: an
option with a section never precedes one without; two unsectioned options are
by descending raw score; two options of different sections are ordered by their
sections' offsets (the encoded section ranking). -/
def c5Rel (ord : List (String × Int)) (a b : CMOption) : Prop :=
  match optSectionName a, optSectionName b with
  | none, none => b.score ≤ a.score
  | none, some _ => True
  | some _, none => False
  | some na, some nb => na = nb ∨ (ord.lookup nb).getD 0 < (ord.lookup na).getD 0

/-- C5 (amended): when every delivered result filters its candidates (no
`filter: false` source) and boosts are in the documented -99..99 band, and the
configured tie-break comparator is total and transitive, the ranked list is
ordered by section placement: no sectioned option precedes an unsectioned one,
unsectioned options are by descending raw score, and options of different
sections are ordered by their sections' encoded rank offsets.  (With a
filter-disabled source the property fails: its synthetic near-1e9 scores put
its sectioned candidates above everything.) -/
theorem c5_amended (active : List ActiveSource) (state : EditorState)
    (hfa : FilteredActive active)
    (htot : ∀ x y, state.conf.compareCompletions x y ≤ 0 ∨
      state.conf.compareCompletions y x ≤ 0)
    (htr : ∀ x y z, state.conf.compareCompletions x y ≤ 0 →
      state.conf.compareCompletions y z ≤ 0 → state.conf.compareCompletions x z ≤ 0) :
    List.Pairwise (c5Rel (sectionOrderOf (collectOptions state active)))
      (sortOptions active state) := by
  have hsorted : List.Pairwise (fun a b => optCmp state.conf a b ≤ 0)
      (sortedOptionList active state) := by
    rw [sortedOptionList_eq]
    exact stableSortBy_pairwise _ (optCmp_total state.conf htot)
      (optCmp_trans state.conf htr) _
  have hsub : List.Sublist (sortOptions active state) (sortedOptionList active state) := by
    have h := dedup_fold_sublist (sortedOptionList active state) [] none
    rw [List.nil_append] at h
    exact h
  have hp : List.Pairwise (fun a b => optCmp state.conf a b ≤ 0)
      (sortOptions active state) := List.Pairwise.sublist hsub hsorted
  have hmem : ∀ o ∈ sortOptions active state, c5Chr (collectOptions state active) o := by
    intro o ho
    refine c5wo_chr active state hfa o ?_
    have h1 : o ∈ sortedOptionList active state := hsub.subset ho
    rw [sortedOptionList_eq] at h1
    exact (mem_stableSortBy _ _ o).mp h1
  refine List.Pairwise.imp_of_mem ?_ hp
  intro a b ha hb hle
  have hca := hmem a ha
  have hcb := hmem b hb
  rw [optCmp_le_iff] at hle
  have hsc : b.score ≤ a.score := by
    rcases hle with h | ⟨h, _⟩ <;> omega
  unfold c5Chr at hca hcb
  unfold c5Rel
  revert hca hcb
  rcases hna : optSectionName a with _ | na <;> rcases hnb : optSectionName b with _ | nb <;>
    intro hca hcb
  · exact hsc
  · exact trivial
  · exfalso
    obtain ⟨va, hla, hvale, hloa, hhia⟩ := hca
    obtain ⟨hlob, hhib⟩ := hcb
    omega
  · obtain ⟨va, hla, hvale, hloa, hhia⟩ := hca
    obtain ⟨vb, hlb, hvble, hlob, hhib⟩ := hcb
    by_cases hnn : na = nb
    · exact Or.inl hnn
    · refine Or.inr ?_
      show ((sectionOrderOf (collectOptions state active)).lookup nb).getD 0 <
        ((sectionOrderOf (collectOptions state active)).lookup na).getD 0
      rw [hla, hlb]
      show vb < va
      obtain ⟨ia, sa, _, _, _, hva⟩ := secmap_lookup_inv
        (stableSortBy (sectionCmp (collectOptions state active).dynScore)
          (collectOptions state active).sections) 0 na va hla
      obtain ⟨ib, sb, _, _, _, hvb⟩ := secmap_lookup_inv
        (stableSortBy (sectionCmp (collectOptions state active).dynScore)
          (collectOptions state active).sections) 0 nb vb hlb
      have hne : va ≠ vb := fun he =>
        hnn (sectionOrderOf_inj (collectOptions state active) na nb va vb hla hlb he)
      omega

/-- A sectioned candidate for the amended-C5 witness. -/
def c5wCmplA : Completion := { label := "m", csection := some (.str "S") }

/-- An unsectioned candidate for the amended-C5 witness. -/
def c5wCmplB : Completion := { label := "n" }

/-- A filtering result carrying one sectioned and one unsectioned candidate. -/
def c5wRes : CompletionResult := { rfrom := 0, rto := some 0, options := [c5wCmplA, c5wCmplB] }

/-- One filtering result state for the amended-C5 witness. -/
def c5wActive : List ActiveSource := [.result 1 false 0 c5wRes 0 0]

/-- C5 witness: the amended section-placement order at a concrete filtering
source with a sectioned and an unsectioned candidate. -/
theorem c5_amended_witness :
    FilteredActive c5wActive ∧
      List.Pairwise (c5Rel (sectionOrderOf (collectOptions c5esEx c5wActive)))
        (sortOptions c5wActive c5esEx) := by
  have hfa : FilteredActive c5wActive := by
    intro a ha src e lim res f t heq
    have ha2 : a = ActiveSource.result 1 false 0 c5wRes 0 0 := List.mem_singleton.mp ha
    rw [ha2] at heq
    injection heq with h1 h2 h3 h4 h5 h6
    subst h4
    refine ⟨by decide, ?_⟩
    intro opt hopt
    rcases List.mem_cons.mp hopt with h | h
    · subst h; decide
    · rw [List.mem_singleton.mp h]; decide
  exact ⟨hfa, c5_amended c5wActive c5esEx hfa
    (fun x y => Or.inl (le_refl 0)) (fun x y z h1 h2 => le_refl 0)⟩
